import Mathlib

/-
Verification of the Markov-Comic-Generator core (src/main.py) against its
natural-language specification.

Modelling conventions:
- Python strings are modelled as `List Char`.
- Font metrics (an external collaborator: PIL `ImageFont`) are modelled by a
  per-character advance function plus a constant line height; `getsize` of a
  string is the sum of the advances of its characters (width) and the font
  height (height).  Python's `str.isprintable` classification is part of the
  runtime and is likewise passed in as a `Char → Bool` parameter.
- `MarkovNode` objects are mutable and shared (the wrapper writes `node.font`
  and `node.word` in place), so nodes live in an explicit store: a node is a
  natural-number id, and every function that mutates or allocates nodes
  threads the store.  `markovnode.py` is not part of src/, so the node shape
  is modelled from the spec (section 3, "Token").
- Machine integers: Python ints are unbounded, so `Int`/`Nat` are used
  directly; `int()` applied to a nonnegative float is truncation (floor).
-/

/-- Which font object a node's `font` attribute references.  `fNone` stands
for a node whose `font` attribute has not been assigned yet; the wrapper
assigns every node's font before any measurement reads it. -/
inductive FontRef
  | fNone
  | fNormal
  | fBold
deriving DecidableEq

/-- A loaded font at a fixed size: per-character advance width and constant
line height (the model of PIL's `ImageFont.getsize`). -/
structure PFont where
  adv : Char → Nat
  hgt : Nat

/-- Width component of `font.getsize(s)`: the sum of per-character advances. -/
def getsizeW (f : PFont) (s : List Char) : Nat :=
  (s.map f.adv).sum

/-- Modelled from the spec: the Styled Token of section 3 ("Token"), as
constructed by the repository's `markovnode.py` (absent from src/): literal
word text, sentence-end flag, the three independent style flags, and the
mutable `font` attribute that `rewrap_nodelistlist` assigns.  The
canonical/randomized case pair is not modelled because no claim concerns it. -/
structure MarkovNode where
  word : List Char
  isEnd : Bool
  isBold : Bool
  isItalic : Bool
  isUnderlined : Bool
  font : FontRef
deriving DecidableEq

/-- The node store: `next` is the first unused id, `mem` maps every id to a
node value (ids at or above `next` hold an irrelevant default until
allocated). -/
structure Store where
  next : Nat
  mem : Nat → MarkovNode

/-- In-place mutation of the node with id `i`. -/
def setNode (st : Store) (i : Nat) (n : MarkovNode) : Store :=
  ⟨st.next, fun j => if j = i then n else st.mem j⟩

/-- Allocation of a fresh node; returns the new store and the fresh id. -/
def allocNode (st : Store) (n : MarkovNode) : Store × Nat :=
  (⟨st.next + 1, fun j => if j = st.next then n else st.mem j⟩, st.next)

/-- The external environment of the Line Wrapper: the two loaded fonts and
Python's `str.isprintable` character classification. -/
structure WrapEnv where
  normal : PFont
  bold : PFont
  printable : Char → Bool

/-- Resolve a node's `font` attribute to a loaded font.  `fNone` is never
consulted (the wrapper assigns fonts first); it maps to a zero font so that
nothing can silently lean on it. -/
def fontOf (env : WrapEnv) : FontRef → PFont
  | .fNone => ⟨fun _ => 0, 0⟩
  | .fNormal => env.normal
  | .fBold => env.bold

/-- The markup chunk one node contributes inside `stringFromNodes`
(src/main.py lines 49-64): optional style delimiters around the word,
followed by one space.  The construction order of the Python code gives
the delimiter nesting underline / italic / bold. -/
def nodeChunk (n : MarkovNode) (useFormatting : Bool) : List Char :=
  let pre : List Char :=
    if useFormatting then
      (if n.isUnderlined then ['_'] else []) ++
        (if n.isItalic then ['/'] else []) ++
        (if n.isBold then ['*'] else [])
    else []
  let post : List Char :=
    if useFormatting then
      (if n.isBold then ['*'] else []) ++
        (if n.isItalic then ['/'] else []) ++
        (if n.isUnderlined then ['_'] else [])
    else []
  pre ++ n.word ++ post ++ [' ']

/-- `stringFromNodes` (src/main.py lines 45-66).  The Python function ends
with `result.rstrip()` whose return value is discarded, so the accumulated
string is returned as built, one chunk per node. -/
def stringFromNodes (st : Store) (ids : List Nat) (useFormatting : Bool) : List Char :=
  match ids with
  | [] => []
  | i :: rest => nodeChunk (st.mem i) useFormatting ++ stringFromNodes st rest useFormatting

/-- Python's `word.split(c, 1)`: the characters before the first occurrence of
`c` and those after it.  Only called when `c` occurs in the word, matching
the guarded uses in src/main.py lines 132-140. -/
def splitOnChar (c : Char) : List Char → List Char × List Char
  | [] => ([], [])
  | x :: xs =>
    if x = c then ([], xs)
    else
      let p := splitOnChar c xs
      (x :: p.1, p.2)

/-- U+00AD, the character Python writes as `"\N{SOFT HYPHEN}"`. -/
def softHyphen : Char := Char.ofNat 0xAD

/-- The word-splitting logic of the oversized-token branch
(src/main.py lines 132-144): split at the first soft hyphen if present, else
at the first visible hyphen, else at the midpoint by character count; the
first section always receives a trailing visible hyphen. -/
def splitOversizedWord (w : List Char) : List Char × List Char :=
  if softHyphen ∈ w then
    let p := splitOnChar softHyphen w
    (p.1 ++ ['-'], p.2)
  else if ('-' : Char) ∈ w then
    let p := splitOnChar '-' w
    (p.1 ++ ['-'], p.2)
  else
    (w.take (w.length / 2) ++ ['-'], w.drop (w.length / 2))

/-- State of the greedy packing loop of `rewrap_nodelistlist`
(src/main.py lines 119-152): the store, the flushed lines `temp`, and the
line under construction `lineList`. -/
structure WrapSt where
  st : Store
  temp : List (List Nat)
  lineList : List Nat

/-- One iteration of the greedy packing loop (src/main.py lines 121-150).
`lineWidth` is the normal-font width of the markup-decorated string of the
current line; `wordWidth` is the width of the node's bare word in the node's
own font.  The oversized branch reads the style flags recorded for the node
(the `boldNodes`/`italicNodes`/`underlinedNodes` dictionaries built at lines
107-113; since no flag is ever written, the recorded values equal the node's
current flags) and allocates two fresh section nodes. -/
def greedyStep (env : WrapEnv) (maxWidth : Int) (s : WrapSt) (i : Nat) : WrapSt :=
  let n := s.st.mem i
  let lineWidth : Nat := getsizeW env.normal (stringFromNodes s.st s.lineList true)
  let wordWidth : Nat := getsizeW (fontOf env n.font) n.word
  if ((lineWidth + wordWidth : Nat) : Int) ≤ maxWidth then
    ⟨s.st, s.temp, s.lineList ++ [i]⟩
  else if ((wordWidth : Nat) : Int) ≤ maxWidth then
    ⟨s.st, s.temp ++ [s.lineList], [i]⟩
  else
    let p := splitOversizedWord n.word
    let a1 := allocNode s.st ⟨p.1, n.isEnd, n.isBold, n.isItalic, n.isUnderlined, n.font⟩
    let a2 := allocNode a1.1 ⟨p.2, n.isEnd, n.isBold, n.isItalic, n.isUnderlined, n.font⟩
    ⟨a2.1, s.temp ++ [s.lineList ++ [a1.2]], [a2.2]⟩

/-- The font-assignment pass of `rewrap_nodelistlist`
(src/main.py lines 110-117): every node of the input list gets its `font`
attribute set to the bold font if its bold flag is set, else to the normal
font. -/
def assignFonts (st : Store) (ids : List Nat) : Store :=
  ids.foldl
    (fun s i =>
      let n := s.mem i
      setNode s i
        ⟨n.word, n.isEnd, n.isBold, n.isItalic, n.isUnderlined,
          if n.isBold then FontRef.fBold else FontRef.fNormal⟩)
    st

/-- In-place removal of non-printable characters from a node's word
(src/main.py line 158). -/
def stripNode (pr : Char → Bool) (n : MarkovNode) : MarkovNode :=
  ⟨n.word.filter pr, n.isEnd, n.isBold, n.isItalic, n.isUnderlined, n.font⟩

/-- The printable-stripping pass over one line (src/main.py lines 156-159). -/
def stripLine (pr : Char → Bool) (st : Store) (line : List Nat) : Store :=
  line.foldl (fun s i => setNode s i (stripNode pr (s.mem i))) st

/-- The printable-stripping pass of `rewrap_nodelistlist`
(src/main.py lines 154-160).  The pass rebuilds each line by appending the
same node objects, so the id lists are unchanged and only the store mutates. -/
def stripLines (pr : Char → Bool) (st : Store) (lines : List (List Nat)) : Store :=
  lines.foldl (stripLine pr) st

/-- The blank spacer node inserted by the centering pass
(src/main.py line 178): empty word, default flags, normal font. -/
def spacerNode : MarkovNode :=
  ⟨[], false, false, false, false, FontRef.fNormal⟩

/-- `numberOfSpaces` successive `line.insert(0, MarkovNode(...))` calls
(src/main.py lines 177-178): each inserts a fresh blank node at the front, so
the node allocated first ends up last in the produced prefix. -/
def allocSpacers (st : Store) : Nat → Store × List Nat
  | 0 => (st, [])
  | k + 1 =>
    let a := allocNode st spacerNode
    let r := allocSpacers a.1 k
    (r.1, r.2 ++ [a.2])

/-- The final per-line width measure of `rewrap_nodelistlist`
(src/main.py lines 164-169): for each node one space advance plus the width
of its word in its own font, minus one trailing space advance (an empty line
therefore measures minus one space advance, hence the `Int` result). -/
def codeLineWidth (env : WrapEnv) (st : Store) (line : List Nat) : Int :=
  ((line.map
      (fun i =>
        getsizeW env.normal [' '] + getsizeW (fontOf env (st.mem i).font) (st.mem i).word)).sum : Nat)
    - (getsizeW env.normal [' '] : Nat)

/-- The centering pass for one line (src/main.py lines 163-180): if centering
is on and the measured width is below `maxWidth`, and one space advance fits
strictly inside the unused width, insert `int(((difference - spaceWidth) /
spaceWidth) // 2)` fresh blank spacer nodes at the front of the line.  The
Python arithmetic is float true-division followed by float floor-division by
2 and `int()`; on these nonnegative integer inputs that equals the chained
natural-number division used here. -/
def centerLine (env : WrapEnv) (maxWidth : Int) (center : Bool)
    (acc : Store × List (List Nat)) (line : List Nat) : Store × List (List Nat) :=
  let st := acc.1
  let lineWidth := codeLineWidth env st line
  if center ∧ lineWidth < maxWidth then
    let difference := maxWidth - lineWidth
    let spaceWidth : Nat := getsizeW env.normal [' ']
    if 0 < spaceWidth ∧ (spaceWidth : Int) < difference then
      let difference2 := difference - (spaceWidth : Int)
      let numberOfSpaces : Nat := difference2.toNat / spaceWidth / 2
      let r := allocSpacers st numberOfSpaces
      (r.1, acc.2 ++ [r.2 ++ line])
    else (st, acc.2 ++ [line])
  else (st, acc.2 ++ [line])

/-- `rewrap_nodelistlist` (src/main.py lines 94-182): assign fonts, pack
greedily into lines (splitting oversized words), flush the pending line,
strip non-printable characters in place, then measure and optionally center
each line.  The `fontSize` parameter of the Python function is ignored by its
body and is omitted.  Returns the final store and the list of lines (lists of
node ids). -/
def rewrap (env : WrapEnv) (maxWidth : Int) (center : Bool)
    (st : Store) (nodeList : List Nat) : Store × List (List Nat) :=
  let st1 := assignFonts st nodeList
  let g := nodeList.foldl (greedyStep env maxWidth) ⟨st1, [], []⟩
  let temp := g.temp ++ [g.lineList]
  let st2 := stripLines env.printable g.st temp
  temp.foldl (centerLine env maxWidth center) (st2, [])

/-- Following the spec's words (section 4.3): the measured width of a line is
the sum of per-token advances — a token using bold style measured with the
bold metrics, others with the normal metrics — plus one inter-token space
advance between consecutive tokens and no trailing space.  Stated for
comparison with the widths the code computes. -/
def specMeasuredLineWidth (env : WrapEnv) (st : Store) (line : List Nat) : Int :=
  match line with
  | [] => 0
  | _ =>
    (((line.map
        (fun i =>
          getsizeW (if (st.mem i).isBold then env.bold else env.normal) (st.mem i).word)).sum : Nat) : Int)
      + ((line.length - 1 : Nat) : Int) * (getsizeW env.normal [' '] : Nat)

/-- The Python exceptions this development distinguishes. -/
inductive PyExc
  | ioError
  | valueError
  | nameError
  | attributeError
deriving DecidableEq

/-- The font reload performed by a failing iteration of the fit loop
(src/main.py lines 664-670).  If `ImageFont.truetype` raises an I/O error at
the decremented size, the handler assigns the built-in default font to
`normalFont` and then evaluates `ImageFont.loa_default()` — an attribute that
does not exist in `PIL.ImageFont` (the module defines `load_default`) — so
the handler itself raises `AttributeError` before `boldFont` is assigned. -/
def reloadFontsAt (loader : Int → Except PyExc (PFont × PFont)) (size : Int) :
    Except PyExc (PFont × PFont) :=
  match loader size with
  | .ok fonts => .ok fonts
  | .error _ => .error .attributeError

/-- Fixed data of the fit-solving loop: the font loader (`ImageFont.truetype`
at the two chosen font files, by size), the printable classification, the
token list being wrapped, and the box dimensions. -/
structure FitConfig where
  loader : Int → Except PyExc (PFont × PFont)
  printable : Char → Bool
  nodeList : List Nat
  width : Int
  height : Int

/-- Mutable state of the fit-solving loop: current candidate size, the two
currently loaded fonts, the node store and the current wrapped lines. -/
structure FitState where
  size : Int
  normalFont : PFont
  boldFont : PFont
  st : Store
  lines : List (List Nat)

/-- The per-line width measured inside the fit loop (src/main.py lines
648-654): every node's word plus one space measured with the normal font,
minus one trailing space advance. -/
def lineFitWidth (f : PFont) (st : Store) (line : List Nat) : Int :=
  (((line.map (fun i => getsizeW f ((st.mem i).word ++ [' ']))).sum : Nat) : Int)
    - (getsizeW f [' '] : Nat)

/-- The per-line height measured inside the fit loop (src/main.py lines
651-653): the maximum string height over the line's nodes, which in the
constant-height font model is the font height for a nonempty line and 0 for
an empty one. -/
def lineFitHeight (f : PFont) (line : List Nat) : Nat :=
  match line with
  | [] => 0
  | _ => f.hgt

/-- The per-iteration acceptance test of the fit loop (src/main.py lines
644-660): every line's measured width fits the box width and the summed line
heights fit the box height. -/
def goodSize (f : PFont) (st : Store) (lines : List (List Nat)) (w h : Int) : Bool :=
  (lines.all fun l => decide (lineFitWidth f st l ≤ w)) &&
    decide ((((lines.map (lineFitHeight f)).sum : Nat) : Int) ≤ h)

/-- Outcome of running the fit loop for a bounded number of iterations:
acceptance, fuel exhausted with the loop still running, or an uncaught
exception. -/
inductive FitOut
  | accepted (s : FitState)
  | fuelOut (s : FitState)
  | exc (e : PyExc)

/-- The fit-solving loop (src/main.py lines 643-671), indexed by the number
of iterations it is allowed: measure the current lines; if they fit, accept;
otherwise decrement the size by one, reload both fonts at the new size (the
reload's I/O-error handler raising `AttributeError`, see `reloadFontsAt`),
re-wrap the token list (centering on, as at the call sites), and retry. -/
def fitLoop (cfg : FitConfig) : Nat → FitState → FitOut
  | 0, s => .fuelOut s
  | fuel + 1, s =>
    if goodSize s.normalFont s.st s.lines cfg.width cfg.height then .accepted s
    else
      match reloadFontsAt cfg.loader (s.size - 1) with
      | .error e => .exc e
      | .ok fonts =>
        let r := rewrap ⟨fonts.1, fonts.2, cfg.printable⟩ cfg.width true s.st cfg.nodeList
        fitLoop cfg fuel ⟨s.size - 1, fonts.1, fonts.2, r.1, r.2⟩

/-- The size recorded in a fit-loop outcome (0 for a crash). -/
def fitOutSize : FitOut → Int
  | .accepted s => s.size
  | .fuelOut s => s.size
  | .exc _ => 0

/-- Whether a fit-loop outcome is an acceptance. -/
def fitOutIsAccepted : FitOut → Bool
  | .accepted _ => true
  | _ => false

/-- A Python numeric value as stored in the text-color list: an `int` or a
`float` (floats modelled as rationals). -/
inductive PyNum
  | int (z : Int)
  | float (q : Rat)
deriving DecidableEq

/-- Python `int()` on a float: truncation toward zero. -/
def pyInt (q : Rat) : Int :=
  if 0 ≤ q then q.floor else -((-q).floor)

/-- The coercion selected by the `useIntegers`/`useFloats` flags of the
contrast code (src/main.py lines 680-706): integer coercion, float coercion,
or neither (the fallback branch sets no flag). -/
inductive CoKind
  | ints
  | floats
  | neither
deriving DecidableEq

/-- Numeric value of a `PyNum`. -/
def pyNumToRat : PyNum → Rat
  | .int z => (z : Rat)
  | .float q => q

/-- Python `mode.startswith(p)` on `List Char` strings. -/
def pyStartsWith (p w : List Char) : Bool :=
  decide (w.take p.length = p)

/-- Python `mode.endswith("A")`: the last character is `'A'`. -/
def pyEndsWithA (w : List Char) : Bool :=
  decide (w.getLast? = some 'A')

/-- Band maximum and coercion kind chosen from the region's pixel mode
(src/main.py lines 680-695).  The floating branch evaluates
`float( infinity )`, but no name `infinity` is defined or imported anywhere
in src/main.py, so that branch raises `NameError`.  The final fallback branch
takes the maximum over the whole image's extrema (an external measurement,
passed in as `fallbackBandMax`) and leaves both coercion flags unset. -/
def computeModeInfo (mode : List Char) (fallbackBandMax : PyNum) :
    Except PyExc (PyNum × CoKind) :=
  if pyStartsWith ['1'] mode then .ok (.int 1, .ints)
  else if pyStartsWith ['L'] mode || pyStartsWith ['P'] mode ||
      pyStartsWith ['R', 'G', 'B'] mode || pyStartsWith ['C', 'M', 'Y', 'K'] mode ||
      pyStartsWith ['Y', 'C', 'b', 'C', 'r'] mode || pyStartsWith ['L', 'A', 'B'] mode ||
      pyStartsWith ['H', 'S', 'V'] mode then .ok (.int 255, .ints)
  else if pyStartsWith ['I'] mode then .ok (.int 2147483647, .ints)
  else if pyStartsWith ['F'] mode then .error .nameError
  else .ok (fallbackBandMax, .neither)

/-- The per-channel derivation of the contrast code (src/main.py lines
697-708): `d = bandMax - c * 1.5`, clamped at 0, then coerced according to
the flags (no coercion leaves the float value). -/
def contrastChannel (bandMax : Rat) (kind : CoKind) (c : Rat) : PyNum :=
  let d := bandMax - c * (3 / 2)
  let d2 := if d < 0 then 0 else d
  match kind with
  | .ints => .int (pyInt d2)
  | .floats => .float d2
  | .neither => .float d2

/-- `textColorList[-1] = bandMax` (src/main.py line 711).  On an empty list
Python would raise `IndexError`; the contrast code only reaches this with one
entry per color band, so the empty case is unreachable and returns the list
unchanged. -/
def setLastVal (v : PyNum) : List PyNum → List PyNum
  | [] => []
  | [_] => [v]
  | x :: xs => x :: setLastVal v xs

/-- The body of the contrast `try` block (src/main.py lines 677-713):
background mean (an external measurement that may itself raise), mode
dispatch, per-channel derivation, and alpha forcing for modes ending in
`"A"`. -/
def pickTextColorRaw (mode : List Char) (fallbackBandMax : PyNum)
    (meanRes : Except PyExc (List Rat)) : Except PyExc (List PyNum) := do
  let bg ← meanRes
  let mi ← computeModeInfo mode fallbackBandMax
  let tcl := bg.map (contrastChannel (pyNumToRat mi.1) mi.2)
  let tcl2 := if pyEndsWithA mode then setLastVal mi.1 tcl else tcl
  pure tcl2

/-- The text color the Contrast Picker produces: a tuple of channel values,
or the string `"black"` chosen by the exception handler. -/
inductive TextColor
  | tuple (l : List PyNum)
  | black
deriving DecidableEq

/-- The Contrast Picker (src/main.py lines 676-716): run the `try` body; the
`except ValueError` handler substitutes the fixed color `"black"`; every
other exception propagates uncaught. -/
def pickTextColor (mode : List Char) (fallbackBandMax : PyNum)
    (meanRes : Except PyExc (List Rat)) : Except PyExc TextColor :=
  match pickTextColorRaw mode fallbackBandMax meanRes with
  | .ok l => .ok (.tuple l)
  | .error .valueError => .ok .black
  | .error e => .error e

/-- A word-bubble rectangle: the four integer coordinates parsed from one
row (src/main.py lines 599-604). -/
abbrev Box := Int × Int × Int × Int

/-- The sentinel value of `previousBox` before any row is processed
(src/main.py line 584). -/
def initialBox : Box := (-1, -1, -1, -1)

/-- The rows that trigger the generate-and-render block, threading
`previousBox` (src/main.py lines 584-731): a row is processed exactly when
its box differs from the previous processed comparison value, which is then
updated to that box. -/
def processRowsFrom (prev : Box) : List Box → List Box
  | [] => []
  | b :: bs => if b = prev then processRowsFrom prev bs else b :: processRowsFrom b bs

/-- The boxes for which the main loop generates a sentence and renders text,
in order (src/main.py lines 584-731). -/
def processedBoxes (rows : List Box) : List Box :=
  processRowsFrom initialBox rows

/-- An empty word with default flags, the value unallocated store slots hold. -/
def defNode : MarkovNode := ⟨[], false, false, false, false, FontRef.fNone⟩

/-- Build a concrete store from a list of nodes (node `i` is the list's `i`-th
element). -/
def mkStore (l : List MarkovNode) : Store :=
  ⟨l.length, fun j => l.getD j defNode⟩

/-- A font whose every character advance is 1 pixel and whose height is 1. -/
def unitFont : PFont := ⟨fun _ => 1, 1⟩

/-- `getsizeW` is additive over string concatenation. -/
theorem getsizeW_append (f : PFont) (a b : List Char) :
    getsizeW f (a ++ b) = getsizeW f a + getsizeW f b := by
  simp [getsizeW]

/-- Removing characters can only shrink a string's measured width. -/
theorem getsizeW_filter_le (f : PFont) (p : Char → Bool) (w : List Char) :
    getsizeW f (w.filter p) ≤ getsizeW f w := by
  induction w with
  | nil => simp [getsizeW]
  | cons c rest ih =>
    cases hp : p c <;> simp [getsizeW, List.filter_cons, hp] at ih ⊢ <;> omega

/-- Helper for `processedBoxes`: inserting a row equal to its predecessor
does not change which rows are processed, whatever the previous-box state. -/
theorem processRowsFrom_dup (b : Box) (post : List Box) :
    ∀ (pre : List Box) (prev : Box),
      processRowsFrom prev (pre ++ b :: b :: post) = processRowsFrom prev (pre ++ b :: post) := by
  intro pre
  induction pre with
  | nil =>
    intro prev
    by_cases h : b = prev
    · simp [processRowsFrom, h]
    · simp [processRowsFrom, h]
  | cons a rest ih =>
    intro prev
    by_cases h : a = prev
    · simp [processRowsFrom, h, ih]
    · simp [processRowsFrom, h, ih]

/-- C9: a word-bubble row whose rectangle is identical to the immediately
preceding row's rectangle triggers no sentence generation and no rendering:
the generate-and-render block runs for exactly the same boxes whether or not
the duplicate consecutive row is present, so a shared rectangle referenced by
consecutive speaker lines is processed exactly once. -/
theorem processedBoxes_skip_duplicate_row (pre : List Box) (b : Box) (post : List Box) :
    processedBoxes (pre ++ b :: b :: post) = processedBoxes (pre ++ b :: post) :=
  processRowsFrom_dup b post pre initialBox

/-- C7: evaluation of the Contrast Picker at a region with floating pixel
mode `"F"`.  The claim (and spec) say a numeric failure in any pixel-format
branch falls back to a fixed neutral color, but the floating branch evaluates
`float( infinity )` with the name `infinity` undefined, raising a `NameError`
that the `except ValueError` handler does not catch: the error propagates
instead of producing the neutral color. -/
theorem pickTextColor_floating_mode_raises :
    pickTextColor ['F'] (PyNum.int 255) (.ok [1 / 2]) = .error .nameError := rfl

/-- If `mode` starts with the (nonempty) prefix `p`, its first character is
`p`'s first character. -/
theorem pyStartsWith_take_one {mode p : List Char} (h : pyStartsWith p mode = true)
    (hp : 1 ≤ p.length) : mode.take 1 = p.take 1 := by
  have he : mode.take p.length = p := of_decide_eq_true h
  calc mode.take 1 = (mode.take p.length).take 1 := by
        rw [List.take_take]
        congr 1
        omega
    _ = p.take 1 := by rw [he]

/-- A mode starting with a prefix whose first character is not `'1'` does not
start with `"1"`. -/
theorem pyStartsWith_one_false {mode p : List Char} (h : pyStartsWith p mode = true)
    (hp : 1 ≤ p.length) (hne : p.take 1 ≠ ['1']) : pyStartsWith ['1'] mode = false := by
  by_contra hc
  have h1 : pyStartsWith ['1'] mode = true := eq_true_of_ne_false hc
  have e1 : mode.take 1 = ['1'] := by
    simpa using pyStartsWith_take_one h1 (by simp)
  have e2 : mode.take 1 = p.take 1 := pyStartsWith_take_one h hp
  exact hne (e2 ▸ e1)

/-- Clamping at zero is taking a maximum with zero. -/
theorem clamp_eq_max (d : Rat) : (if d < 0 then 0 else d) = max 0 d := by
  rcases lt_or_le d 0 with h | h
  · simp [h, max_eq_left h.le]
  · simp [not_lt.2 h, max_eq_right h]

/-- C6: for a region whose pixel mode is one of the 8-bit integer families
(luminance, palette, RGB, CMYK, YCbCr, LAB, HSV — stated here for modes
without an alpha channel, as the claim's examples are, since alpha forcing is
a separate step), the Contrast Picker outputs for each channel mean `c` the
integer `max(0, 255 − c · 1.5)`, coerced with Python `int()`: clamped at zero
and never negative.  In particular mean `(0,0,0)` yields `(255,255,255)` and
mean `(255,255,255)` yields `(0,0,0)` (see the witness). -/
theorem pickTextColor_eightBit (mode : List Char) (bg : List Rat) (fb : PyNum)
    (h8 : (pyStartsWith ['L'] mode || pyStartsWith ['P'] mode ||
        pyStartsWith ['R', 'G', 'B'] mode || pyStartsWith ['C', 'M', 'Y', 'K'] mode ||
        pyStartsWith ['Y', 'C', 'b', 'C', 'r'] mode || pyStartsWith ['L', 'A', 'B'] mode ||
        pyStartsWith ['H', 'S', 'V'] mode) = true)
    (hA : pyEndsWithA mode = false) :
    pickTextColor mode fb (.ok bg) =
      .ok (.tuple (bg.map fun c => PyNum.int (pyInt (max 0 (255 - c * (3 / 2)))))) := by
  have h1 : pyStartsWith ['1'] mode = false := by
    have h8' := h8
    simp only [Bool.or_eq_true] at h8'
    rcases h8' with ((((((hx | hx) | hx) | hx) | hx) | hx) | hx) <;>
      exact pyStartsWith_one_false hx (by simp) (by decide)
  have hmi : computeModeInfo mode fb = .ok (.int 255, .ints) := by
    simp [computeModeInfo, h1, h8]
  have hnum : pyNumToRat (.int 255) = (255 : Rat) := by
    simp [pyNumToRat]
  simp only [pickTextColor, pickTextColorRaw, hmi, hA, bind, Except.bind, pure, Except.pure,
    if_false, Bool.false_eq_true]
  have hmap : (bg.map (contrastChannel (pyNumToRat (.int 255)) .ints)) =
      bg.map fun c => PyNum.int (pyInt (max 0 (255 - c * (3 / 2)))) := by
    apply List.map_congr_left
    intro c _
    simp only [contrastChannel, hnum, clamp_eq_max]
  rw [hmap]

/-- C6 witness: the two endpoint instances of the claim, obtained from
`pickTextColor_eightBit` at mode `"RGB"`: mean `(0,0,0)` gives
`(255,255,255)` and mean `(255,255,255)` gives `(0,0,0)`. -/
theorem pickTextColor_eightBit_witness :
    pickTextColor ['R', 'G', 'B'] (PyNum.int 255) (.ok [0, 0, 0]) =
        .ok (.tuple [PyNum.int 255, PyNum.int 255, PyNum.int 255]) ∧
      pickTextColor ['R', 'G', 'B'] (PyNum.int 255) (.ok [255, 255, 255]) =
        .ok (.tuple [PyNum.int 0, PyNum.int 0, PyNum.int 0]) := by
  constructor
  · rw [pickTextColor_eightBit ['R', 'G', 'B'] [0, 0, 0] (PyNum.int 255) (by decide) (by decide)]
    norm_num [pyInt]
    decide
  · rw [pickTextColor_eightBit ['R', 'G', 'B'] [255, 255, 255] (PyNum.int 255) (by decide)
      (by decide)]
    norm_num [pyInt]
    decide

/-- Every node's chunk inside `stringFromNodes` ends with the appended
space. -/
theorem nodeChunk_getLast (n : MarkovNode) (u : Bool) :
    (nodeChunk n u).getLast? = some ' ' := by
  simp only [nodeChunk]
  exact List.getLast?_concat _

/-- For a nonempty node list the accumulated string ends with a space. -/
theorem stringFromNodes_getLast (st : Store) (u : Bool) :
    ∀ ids : List Nat, ids ≠ [] → (stringFromNodes st ids u).getLast? = some ' ' := by
  intro ids
  induction ids with
  | nil => intro h; exact absurd rfl h
  | cons i rest ih =>
    intro _
    cases rest with
    | nil => simpa [stringFromNodes] using nodeChunk_getLast (st.mem i) u
    | cons a t =>
      have h2 : (stringFromNodes st (a :: t) u).getLast? = some ' ' := ih (by simp)
      have hne : stringFromNodes st (a :: t) u ≠ [] := by
        intro hnil
        rw [hnil] at h2
        simp at h2
      show (nodeChunk (st.mem i) u ++ stringFromNodes st (a :: t) u).getLast? = some ' '
      rw [List.getLast?_append_of_ne_nil _ hne]
      exact h2

/-- Whether a string ends in exactly one space: its last character is a space
and its second-to-last character (if any) is not. -/
def endsWithSingleSpace (s : List Char) : Bool :=
  decide (s.getLast? = some ' ') && !(decide (s.dropLast.getLast? = some ' '))

/-- C10 counterexample: the claim says `stringFromNodes` of every non-empty
node list ends with a single trailing space, but a list whose last node has
an empty word (as the centering pass's spacer nodes do) produces a string
ending in two spaces — one from the previous node's chunk and one from the
empty-word node's chunk. -/
theorem stringFromNodes_two_trailing_spaces :
    stringFromNodes
        (mkStore [⟨['a'], false, false, false, false, .fNone⟩,
          ⟨[], false, false, false, false, .fNone⟩]) [0, 1] true = ['a', ' ', ' '] ∧
      endsWithSingleSpace
          (stringFromNodes
            (mkStore [⟨['a'], false, false, false, false, .fNone⟩,
              ⟨[], false, false, false, false, .fNone⟩]) [0, 1] true) = false := by
  decide

/-- C10 (amended): `stringFromNodes` of the empty node list is the empty
string, and of every non-empty node list is a string ending with a trailing
space (at least one; exactly one whenever the final chunk's last characters
are not themselves spaces), because the final `rstrip` call's result is
discarded.  Consequently every transcript dialogue line built from a
non-empty node list carries a trailing space before its newline. -/
theorem stringFromNodes_trailing_space (st : Store) (ids : List Nat) (u : Bool) :
    (ids = [] → stringFromNodes st ids u = []) ∧
      (ids ≠ [] → (stringFromNodes st ids u).getLast? = some ' ') := by
  constructor
  · intro h
    subst h
    rfl
  · exact stringFromNodes_getLast st u ids

/-- C10 witness: the amended theorem evaluated on a concrete one-node list. -/
theorem stringFromNodes_trailing_space_witness :
    ([0] ≠ ([] : List Nat)) ∧
      (stringFromNodes (mkStore [⟨['h', 'i'], false, false, false, false, .fNone⟩])
          [0] true).getLast? = some ' ' :=
  ⟨by decide,
    (stringFromNodes_trailing_space
        (mkStore [⟨['h', 'i'], false, false, false, false, .fNone⟩]) [0] true).2 (by decide)⟩

/-- C8: when the greedy packer meets a token whose word contains no soft or
visible hyphen and whose own-font width exceeds the width budget, it splits
the word at the midpoint by character count: the first half (with a hyphen
appended) is placed at the end of the flushed line as a fresh node, the
second half becomes the new pending line as another fresh node, both halves
inherit the original token's style flags (and sentence-end flag and font),
and the concatenation of the two halves minus the inserted hyphen
reconstructs exactly the original word's characters. -/
theorem greedyStep_midpoint_split (env : WrapEnv) (maxWidth : Int) (s : WrapSt) (i : Nat)
    (hshy : softHyphen ∉ (s.st.mem i).word)
    (hhy : ('-' : Char) ∉ (s.st.mem i).word)
    (hover : maxWidth < ((getsizeW (fontOf env (s.st.mem i).font) (s.st.mem i).word : Nat) : Int)) :
    (greedyStep env maxWidth s i).temp = s.temp ++ [s.lineList ++ [s.st.next]] ∧
      (greedyStep env maxWidth s i).lineList = [s.st.next + 1] ∧
      ((greedyStep env maxWidth s i).st.mem s.st.next).word
          = (s.st.mem i).word.take ((s.st.mem i).word.length / 2) ++ ['-'] ∧
      ((greedyStep env maxWidth s i).st.mem (s.st.next + 1)).word
          = (s.st.mem i).word.drop ((s.st.mem i).word.length / 2) ∧
      ((greedyStep env maxWidth s i).st.mem s.st.next).isBold = (s.st.mem i).isBold ∧
      ((greedyStep env maxWidth s i).st.mem s.st.next).isItalic = (s.st.mem i).isItalic ∧
      ((greedyStep env maxWidth s i).st.mem s.st.next).isUnderlined
          = (s.st.mem i).isUnderlined ∧
      ((greedyStep env maxWidth s i).st.mem s.st.next).isEnd = (s.st.mem i).isEnd ∧
      ((greedyStep env maxWidth s i).st.mem (s.st.next + 1)).isBold = (s.st.mem i).isBold ∧
      ((greedyStep env maxWidth s i).st.mem (s.st.next + 1)).isItalic = (s.st.mem i).isItalic ∧
      ((greedyStep env maxWidth s i).st.mem (s.st.next + 1)).isUnderlined
          = (s.st.mem i).isUnderlined ∧
      ((greedyStep env maxWidth s i).st.mem (s.st.next + 1)).isEnd = (s.st.mem i).isEnd ∧
      ((greedyStep env maxWidth s i).st.mem s.st.next).word.dropLast
          ++ ((greedyStep env maxWidth s i).st.mem (s.st.next + 1)).word = (s.st.mem i).word := by
  have hc1 : ¬ (((getsizeW env.normal (stringFromNodes s.st s.lineList true)
      + getsizeW (fontOf env (s.st.mem i).font) (s.st.mem i).word : Nat) : Int) ≤ maxWidth) := by
    omega
  have hc2 : ¬ (((getsizeW (fontOf env (s.st.mem i).font) (s.st.mem i).word : Nat) : Int)
      ≤ maxWidth) := by
    omega
  have hne1 : ¬ (s.st.next = s.st.next + 1) := by omega
  refine ⟨?_, ?_, ?_, ?_, ?_, ?_, ?_, ?_, ?_, ?_, ?_, ?_, ?_⟩ <;>
    simp only [greedyStep, hc1, hc2, if_false, splitOversizedWord, hshy, hhy, allocNode, setNode,
      hne1, if_true, if_pos rfl]
  rw [List.dropLast_concat]
  exact List.take_append_drop _ _

/-- C8 witness: the splitting theorem evaluated on the concrete token
`"abcd"` (no hyphen) with unit character advances and width budget 1. -/
theorem greedyStep_midpoint_split_witness :
    (softHyphen ∉ (['a', 'b', 'c', 'd'] : List Char)) ∧
      (('-' : Char) ∉ (['a', 'b', 'c', 'd'] : List Char)) ∧
      ((1 : Int) < ((getsizeW
          (fontOf ⟨unitFont, unitFont, fun _ => true⟩
            ((mkStore [⟨['a', 'b', 'c', 'd'], false, true, false, false, .fNormal⟩]).mem 0).font)
          ((mkStore [⟨['a', 'b', 'c', 'd'], false, true, false, false, .fNormal⟩]).mem 0).word : Nat) : Int)) ∧
      ((greedyStep ⟨unitFont, unitFont, fun _ => true⟩ 1
          ⟨mkStore [⟨['a', 'b', 'c', 'd'], false, true, false, false, .fNormal⟩], [], []⟩ 0).st.mem
          1).word = ['a', 'b', '-'] ∧
      ((greedyStep ⟨unitFont, unitFont, fun _ => true⟩ 1
          ⟨mkStore [⟨['a', 'b', 'c', 'd'], false, true, false, false, .fNormal⟩], [], []⟩ 0).st.mem
          2).word = ['c', 'd'] := by
  have h := greedyStep_midpoint_split ⟨unitFont, unitFont, fun _ => true⟩ 1
    ⟨mkStore [⟨['a', 'b', 'c', 'd'], false, true, false, false, .fNormal⟩], [], []⟩ 0
    (by decide) (by decide) (by decide)
  exact ⟨by decide, by decide, by decide, h.2.2.1, h.2.2.2.1⟩

/-- The exception carried by a fit-loop outcome, if any. -/
def fitOutExc : FitOut → Option PyExc
  | .exc e => some e
  | _ => none

/-- A configuration whose font loader always raises an I/O error, a box of
width and height 1, and a one-token state whose line does not fit. -/
def c2Cfg : FitConfig := ⟨fun _ => .error .ioError, fun _ => true, [0], 1, 1⟩

/-- Starting state for the `c2Cfg` run: size 3, unit fonts, one line holding
the token `"ab"`. -/
def c2Start : FitState :=
  ⟨3, unitFont, unitFont, mkStore [⟨['a', 'b'], false, false, false, false, .fNormal⟩], [[0]]⟩

/-- C2: evaluation of the fit loop at an iteration where the current layout
does not fit and reloading the fonts at the decremented size raises an I/O
error.  The claim (and spec) say both fonts are replaced by a built-in
fallback and the loop continues, but the handler's second statement is
`boldFont = ImageFont.loa_default()` — an attribute that does not exist in
`PIL.ImageFont` — so the run aborts with an uncaught `AttributeError` instead
of continuing with fallback fonts. -/
theorem fitLoop_reload_failure_attributeError :
    fitOutExc (fitLoop c2Cfg 1 c2Start) = some PyExc.attributeError := by decide

/-- The fit-loop configuration of the C3 counterexample: a loader that always
succeeds and returns the same unit font at every size (metrics independent of
the requested size, exactly as with PIL's bitmap `load_default` font), a box
of width 1 and height 1, and the single token `"abc"`. -/
def c3Cfg : FitConfig := ⟨fun _ => .ok (unitFont, unitFont), fun _ => true, [0], 1, 1⟩

/-- The wrap environment with unit fonts and an all-printable classifier. -/
def envU : WrapEnv := ⟨unitFont, unitFont, fun _ => true⟩

/-- The starting state of the C3 counterexample: start font size 3 with the
token list already wrapped once, as the main program does before entering the
loop. -/
def c3Start : FitState :=
  ⟨3, unitFont, unitFont,
    (rewrap envU 1 true (mkStore [⟨['a', 'b', 'c'], false, false, false, false, .fNone⟩]) [0]).1,
    (rewrap envU 1 true (mkStore [⟨['a', 'b', 'c'], false, false, false, false, .fNone⟩]) [0]).2⟩

/-- C3 counterexample: with start font size 3 and the spec's suggested
minimum size 1, the claim bounds the loop at 3 iterations, after which a
best-effort layout is accepted.  Running the loop for 10 iterations on a box
the text can never fit (constant font metrics, width 1), it has still
accepted nothing and the candidate size has reached −7 — below every
positive minimum — so no minimum font size is enforced and no best-effort
acceptance exists. -/
theorem fitLoop_no_minimum_size :
    fitOutIsAccepted (fitLoop c3Cfg 10 c3Start) = false ∧
      fitOutSize (fitLoop c3Cfg 10 c3Start) = -7 := by decide

/-- A wrap environment with unit fonts whose printable classification, as
Python's `str.isprintable` does, rejects the soft hyphen (a format-category
character). -/
def envShy : WrapEnv := ⟨unitFont, unitFont, fun c => decide (c ≠ softHyphen)⟩

/-- C1 counterexample: wrapping is claimed to leave every input token's word
unchanged, but the printable-stripping pass writes the filtered word back
into the shared input node: a token whose word contains a soft hyphen (a
character `str.isprintable` rejects) narrow enough to fit on a line comes out
of `rewrap` with its word rewritten from `"a\N{SOFT HYPHEN}b"` to `"ab"`. -/
theorem rewrap_mutates_input_word :
    ((rewrap envShy 10 true
        (mkStore [⟨['a', softHyphen, 'b'], false, false, false, false, .fNone⟩]) [0]).1.mem 0).word
        = ['a', 'b'] ∧
      ((mkStore [⟨['a', softHyphen, 'b'], false, false, false, false, .fNone⟩]).mem 0).word
        = ['a', softHyphen, 'b'] := by
  decide

/-- The node value `assignFonts` writes back: same word and flags, font
chosen by the bold flag (src/main.py lines 114-117). -/
def fontAssignedNode (n : MarkovNode) : MarkovNode :=
  ⟨n.word, n.isEnd, n.isBold, n.isItalic, n.isUnderlined,
    if n.isBold then FontRef.fBold else FontRef.fNormal⟩

/-- `assignFonts` unfolds one step at a time. -/
theorem assignFonts_cons (st : Store) (i : Nat) (rest : List Nat) :
    assignFonts st (i :: rest) = assignFonts (setNode st i (fontAssignedNode (st.mem i))) rest := by
  simp [assignFonts, fontAssignedNode, List.foldl_cons, setNode]

/-- `setNode` reads back. -/
theorem setNode_mem (st : Store) (i : Nat) (n : MarkovNode) (j : Nat) :
    (setNode st i n).mem j = if j = i then n else st.mem j := rfl

/-- Assigning fonts does not change the allocation frontier. -/
theorem assignFonts_next (ids : List Nat) : ∀ st : Store, (assignFonts st ids).next = st.next := by
  induction ids with
  | nil => intro st; rfl
  | cons i rest ih =>
    intro st
    rw [assignFonts_cons]
    exact ih _

/-- Assigning fonts changes no word, flag, or end marker of any node. -/
theorem assignFonts_content (ids : List Nat) :
    ∀ (st : Store) (j : Nat),
      ((assignFonts st ids).mem j).word = (st.mem j).word ∧
        ((assignFonts st ids).mem j).isEnd = (st.mem j).isEnd ∧
        ((assignFonts st ids).mem j).isBold = (st.mem j).isBold ∧
        ((assignFonts st ids).mem j).isItalic = (st.mem j).isItalic ∧
        ((assignFonts st ids).mem j).isUnderlined = (st.mem j).isUnderlined := by
  induction ids with
  | nil => intro st j; exact ⟨rfl, rfl, rfl, rfl, rfl⟩
  | cons i rest ih =>
    intro st j
    rw [assignFonts_cons]
    have h := ih (setNode st i (fontAssignedNode (st.mem i))) j
    by_cases hj : j = i
    · subst hj
      simpa [setNode_mem, fontAssignedNode] using h
    · simpa [setNode_mem, hj] using h

/-- Ids outside the assigned list are untouched by `assignFonts`. -/
theorem assignFonts_mem_notin (ids : List Nat) :
    ∀ (st : Store) (j : Nat), j ∉ ids → (assignFonts st ids).mem j = st.mem j := by
  induction ids with
  | nil => intro st j _; rfl
  | cons i rest ih =>
    intro st j hj
    rw [assignFonts_cons]
    have hne : j ≠ i := fun h => hj (h ▸ List.mem_cons_self i rest)
    have hnr : j ∉ rest := fun h => hj (List.mem_cons_of_mem i h)
    rw [ih _ j hnr, setNode_mem, if_neg hne]

/-- After `assignFonts`, every listed node's font matches its bold flag. -/
theorem assignFonts_font (ids : List Nat) :
    ∀ (st : Store) (i : Nat), i ∈ ids →
      ((assignFonts st ids).mem i).font
        = (if (st.mem i).isBold then FontRef.fBold else FontRef.fNormal) := by
  induction ids with
  | nil => intro st i hi; exact absurd hi (List.not_mem_nil i)
  | cons a rest ih =>
    intro st i hi
    rw [assignFonts_cons]
    by_cases hr : i ∈ rest
    · rw [ih _ i hr]
      by_cases hia : i = a
      · subst hia
        simp [setNode_mem, fontAssignedNode]
      · simp [setNode_mem, hia]
    · have hia : i = a := by
        rcases List.mem_cons.mp hi with h | h
        · exact h
        · exact absurd h hr
      subst hia
      rw [assignFonts_mem_notin rest _ i hr, setNode_mem, if_pos rfl]
      rfl

/-- A greedy step never shrinks the allocation frontier. -/
theorem greedyStep_next_le (env : WrapEnv) (maxW : Int) (s : WrapSt) (i : Nat) :
    s.st.next ≤ (greedyStep env maxW s i).st.next := by
  simp only [greedyStep]
  split
  · exact le_refl _
  · split
    · exact le_refl _
    · simp [allocNode]
      omega

/-- A greedy step leaves every already-allocated node untouched. -/
theorem greedyStep_mem_lt (env : WrapEnv) (maxW : Int) (s : WrapSt) (i : Nat) (j : Nat)
    (hj : j < s.st.next) : (greedyStep env maxW s i).st.mem j = s.st.mem j := by
  simp only [greedyStep]
  split
  · rfl
  · split
    · rfl
    · simp only [allocNode]
      rw [if_neg (by omega), if_neg (by omega)]

/-- A greedy step's output lines consist of input-list ids and fresh ids. -/
theorem greedyStep_lines (env : WrapEnv) (maxW : Int) (s : WrapSt) (i : Nat)
    (ids0 : List Nat) (base : Nat) (hi : i ∈ ids0) (hb : base ≤ s.st.next)
    (h : ∀ l ∈ s.temp ++ [s.lineList], ∀ j ∈ l, j ∈ ids0 ∨ base ≤ j) :
    ∀ l ∈ (greedyStep env maxW s i).temp ++ [(greedyStep env maxW s i).lineList],
      ∀ j ∈ l, j ∈ ids0 ∨ base ≤ j := by
  have htemp : ∀ l ∈ s.temp, ∀ j ∈ l, j ∈ ids0 ∨ base ≤ j := by
    intro l hl
    exact h l (List.mem_append_left _ hl)
  have hline : ∀ j ∈ s.lineList, j ∈ ids0 ∨ base ≤ j := by
    exact h s.lineList (List.mem_append_right _ (List.mem_singleton_self _))
  simp only [greedyStep]
  split
  · intro l hl j hj
    rcases List.mem_append.mp hl with hl | hl
    · exact htemp l hl j hj
    · have : l = s.lineList ++ [i] := List.mem_singleton.mp hl
      subst this
      rcases List.mem_append.mp hj with hj | hj
      · exact hline j hj
      · exact Or.inl ((List.mem_singleton.mp hj) ▸ hi)
  · split
    · intro l hl j hj
      rcases List.mem_append.mp hl with hl | hl
      · rcases List.mem_append.mp hl with hl | hl
        · exact htemp l hl j hj
        · have : l = s.lineList := List.mem_singleton.mp hl
          subst this
          exact hline j hj
      · have : l = [i] := List.mem_singleton.mp hl
        subst this
        exact Or.inl ((List.mem_singleton.mp hj) ▸ hi)
    · intro l hl j hj
      simp only [allocNode] at hl
      rcases List.mem_append.mp hl with hl | hl
      · rcases List.mem_append.mp hl with hl | hl
        · exact htemp l hl j hj
        · have : l = s.lineList ++ [s.st.next] := List.mem_singleton.mp hl
          subst this
          rcases List.mem_append.mp hj with hj | hj
          · exact hline j hj
          · exact Or.inr (by
              have := List.mem_singleton.mp hj
              omega)
      · have : l = [s.st.next + 1] := List.mem_singleton.mp hl
        subst this
        exact Or.inr (by
          have := List.mem_singleton.mp hj
          omega)

/-- Invariant of the whole greedy fold: the frontier only grows, nodes below
the starting frontier are untouched, and every id in the flushed or pending
lines is an input id or a freshly allocated one. -/
theorem greedy_fold_inv (env : WrapEnv) (maxW : Int) (ids0 : List Nat) (base : Nat) :
    ∀ (ids : List Nat) (s : WrapSt),
      (∀ i ∈ ids, i ∈ ids0) →
      base ≤ s.st.next →
      (∀ l ∈ s.temp ++ [s.lineList], ∀ j ∈ l, j ∈ ids0 ∨ base ≤ j) →
      base ≤ (ids.foldl (greedyStep env maxW) s).st.next ∧
        (∀ j, j < base → (ids.foldl (greedyStep env maxW) s).st.mem j = s.st.mem j) ∧
        (∀ l ∈ (ids.foldl (greedyStep env maxW) s).temp
            ++ [(ids.foldl (greedyStep env maxW) s).lineList],
          ∀ j ∈ l, j ∈ ids0 ∨ base ≤ j) := by
  intro ids
  induction ids with
  | nil =>
    intro s _ hb h
    exact ⟨hb, fun j _ => rfl, h⟩
  | cons i rest ih =>
    intro s hsub hb h
    have hi : i ∈ ids0 := hsub i (List.mem_cons_self i rest)
    have hb2 : base ≤ (greedyStep env maxW s i).st.next :=
      le_trans hb (greedyStep_next_le env maxW s i)
    have h2 := greedyStep_lines env maxW s i ids0 base hi hb h
    have hrec := ih (greedyStep env maxW s i) (fun a ha => hsub a (List.mem_cons_of_mem i ha))
      hb2 h2
    refine ⟨hrec.1, ?_, hrec.2.2⟩
    intro j hj
    rw [List.foldl_cons, hrec.2.1 j hj, greedyStep_mem_lt env maxW s i j (lt_of_lt_of_le hj hb)]

/-- Stripping twice is stripping once. -/
theorem filter_self_idem (p : Char → Bool) (w : List Char) :
    (w.filter p).filter p = w.filter p := by
  induction w with
  | nil => rfl
  | cons c rest ih =>
    cases hp : p c
    · simp [List.filter_cons, hp, ih]
    · simp [List.filter_cons, hp, ih]

/-- `stripNode` is idempotent. -/
theorem stripNode_idem (pr : Char → Bool) (n : MarkovNode) :
    stripNode pr (stripNode pr n) = stripNode pr n := by
  simp [stripNode, filter_self_idem]

/-- `stripLine` unfolds one node at a time. -/
theorem stripLine_cons (pr : Char → Bool) (st : Store) (a : Nat) (rest : List Nat) :
    stripLine pr st (a :: rest)
      = stripLine pr (setNode st a (stripNode pr (st.mem a))) rest := rfl

/-- Stripping changes no allocation frontier. -/
theorem stripLine_next (pr : Char → Bool) (line : List Nat) :
    ∀ st : Store, (stripLine pr st line).next = st.next := by
  induction line with
  | nil => intro st; rfl
  | cons a rest ih =>
    intro st
    rw [stripLine_cons]
    exact ih _

/-- After stripping a line, every node is either untouched or holds its
stripped value. -/
theorem stripLine_mem (pr : Char → Bool) (line : List Nat) :
    ∀ (st : Store) (i : Nat),
      (stripLine pr st line).mem i = st.mem i ∨
        (stripLine pr st line).mem i = stripNode pr (st.mem i) := by
  induction line with
  | nil => intro st i; exact Or.inl rfl
  | cons a rest ih =>
    intro st i
    rw [stripLine_cons]
    have h := ih (setNode st a (stripNode pr (st.mem a))) i
    by_cases hia : i = a
    · subst hia
      rcases h with h | h
    
      · rw [h, setNode_mem, if_pos rfl]
        exact Or.inr rfl
      · rw [h, setNode_mem, if_pos rfl, stripNode_idem]
        exact Or.inr rfl
    · rcases h with h | h
      · rw [h, setNode_mem, if_neg hia]
        exact Or.inl rfl
      · rw [h, setNode_mem, if_neg hia]
        exact Or.inr rfl

/-- `stripLines` changes no allocation frontier. -/
theorem stripLines_next (pr : Char → Bool) (lines : List (List Nat)) :
    ∀ st : Store, (stripLines pr st lines).next = st.next := by
  induction lines with
  | nil => intro st; rfl
  | cons l rest ih =>
    intro st
    show (stripLines pr (stripLine pr st l) rest).next = st.next
    rw [ih _, stripLine_next]

/-- After the whole stripping pass, every node is either untouched or holds
its stripped value. -/
theorem stripLines_mem (pr : Char → Bool) (lines : List (List Nat)) :
    ∀ (st : Store) (i : Nat),
      (stripLines pr st lines).mem i = st.mem i ∨
        (stripLines pr st lines).mem i = stripNode pr (st.mem i) := by
  induction lines with
  | nil => intro st i; exact Or.inl rfl
  | cons l rest ih =>
    intro st i
    have hstep : stripLines pr st (l :: rest) = stripLines pr (stripLine pr st l) rest := rfl
    rw [hstep]
    rcases ih (stripLine pr st l) i with h | h <;> rcases stripLine_mem pr l st i with h2 | h2
    · rw [h, h2]
      exact Or.inl rfl
    · rw [h, h2]
      exact Or.inr rfl
    · rw [h, h2]
      exact Or.inr rfl
    · rw [h, h2, stripNode_idem]
      exact Or.inr rfl

/-- Allocating `k` spacers advances the frontier by exactly `k`. -/
theorem allocSpacers_next (k : Nat) : ∀ st : Store, (allocSpacers st k).1.next = st.next + k := by
  induction k with
  | zero => intro st; rfl
  | succ n ih =>
    intro st
    show (allocSpacers (allocNode st spacerNode).1 n).1.next = st.next + (n + 1)
    rw [ih _]
    simp [allocNode]
    omega

/-- Allocating spacers leaves already-allocated nodes untouched. -/
theorem allocSpacers_mem_lt (k : Nat) :
    ∀ (st : Store) (j : Nat), j < st.next → (allocSpacers st k).1.mem j = st.mem j := by
  induction k with
  | zero => intro st j _; rfl
  | succ n ih =>
    intro st j hj
    show (allocSpacers (allocNode st spacerNode).1 n).1.mem j = st.mem j
    rw [ih _ j (by simp [allocNode]; omega)]
    simp only [allocNode]
    rw [if_neg (by omega)]

/-- Every id produced by `allocSpacers` is fresh. -/
theorem allocSpacers_ids_ge (k : Nat) :
    ∀ (st : Store) (j : Nat), j ∈ (allocSpacers st k).2 → st.next ≤ j := by
  induction k with
  | zero => intro st j hj; exact absurd hj (List.not_mem_nil j)
  | succ n ih =>
    intro st j hj
    have hj2 : j ∈ (allocSpacers (allocNode st spacerNode).1 n).2 ++ [st.next] := hj
    rcases List.mem_append.mp hj2 with h | h
    · have := ih (allocNode st spacerNode).1 j h
      simp only [allocNode] at this
      omega
    · have := List.mem_singleton.mp h
      omega

/-- Every id produced by `allocSpacers` holds the blank spacer node. -/
theorem allocSpacers_mem_ids (k : Nat) :
    ∀ (st : Store) (j : Nat), j ∈ (allocSpacers st k).2 →
      (allocSpacers st k).1.mem j = spacerNode := by
  induction k with
  | zero => intro st j hj; exact absurd hj (List.not_mem_nil j)
  | succ n ih =>
    intro st j hj
    have hj2 : j ∈ (allocSpacers (allocNode st spacerNode).1 n).2 ++ [st.next] := hj
    show (allocSpacers (allocNode st spacerNode).1 n).1.mem j = spacerNode
    rcases List.mem_append.mp hj2 with h | h
    · exact ih _ j h
    · have hje := List.mem_singleton.mp h
      subst hje
      rw [allocSpacers_mem_lt n _ st.next (by simp [allocNode])]
      simp [allocNode]

/-- `allocSpacers` produces exactly `k` spacer ids. -/
theorem allocSpacers_len (k : Nat) : ∀ st : Store, (allocSpacers st k).2.length = k := by
  induction k with
  | zero => intro st; rfl
  | succ n ih =>
    intro st
    show ((allocSpacers (allocNode st spacerNode).1 n).2 ++ [st.next]).length = n + 1
    rw [List.length_append, ih _]
    rfl

/-- A centering step never shrinks the allocation frontier. -/
theorem centerLine_next_le (env : WrapEnv) (maxW : Int) (c : Bool)
    (acc : Store × List (List Nat)) (line : List Nat) :
    acc.1.next ≤ (centerLine env maxW c acc line).1.next := by
  simp only [centerLine]
  split
  · split
    · rw [allocSpacers_next]
      exact Nat.le_add_right _ _
    · exact le_refl _
  · exact le_refl _

/-- A centering step leaves already-allocated nodes untouched. -/
theorem centerLine_mem_lt (env : WrapEnv) (maxW : Int) (c : Bool)
    (acc : Store × List (List Nat)) (line : List Nat) (j : Nat) (hj : j < acc.1.next) :
    (centerLine env maxW c acc line).1.mem j = acc.1.mem j := by
  simp only [centerLine]
  split
  · split
    · exact allocSpacers_mem_lt _ _ j hj
    · rfl
  · rfl

/-- A centering step appends exactly one line: the processed line with a
(possibly empty) prefix of freshly allocated blank spacer nodes. -/
theorem centerLine_shape (env : WrapEnv) (maxW : Int) (c : Bool)
    (acc : Store × List (List Nat)) (line : List Nat) :
    ∃ pre : List Nat,
      (centerLine env maxW c acc line).2 = acc.2 ++ [pre ++ line] ∧
        ∀ j ∈ pre, acc.1.next ≤ j ∧ (centerLine env maxW c acc line).1.mem j = spacerNode := by
  simp only [centerLine]
  split
  · split
    · refine ⟨(allocSpacers acc.1 ((maxW - codeLineWidth env acc.1 line
        - (getsizeW env.normal [' '] : Nat)).toNat / getsizeW env.normal [' '] / 2)).2, rfl, ?_⟩
      intro j hj
      exact ⟨allocSpacers_ids_ge _ _ j hj, allocSpacers_mem_ids _ _ j hj⟩
    · exact ⟨[], rfl, fun j hj => absurd hj (List.not_mem_nil j)⟩
  · exact ⟨[], rfl, fun j hj => absurd hj (List.not_mem_nil j)⟩

/-- Invariant of the centering fold: the frontier only grows, nodes below the
starting frontier are untouched, and every id in an output line satisfies the
input-line predicate or is fresh. -/
theorem center_fold_fresh (env : WrapEnv) (maxW : Int) (c : Bool) (base : Nat) (P : Nat → Prop) :
    ∀ (ls : List (List Nat)) (acc : Store × List (List Nat)),
      base ≤ acc.1.next →
      (∀ l ∈ acc.2, ∀ j ∈ l, P j ∨ base ≤ j) →
      (∀ l ∈ ls, ∀ j ∈ l, P j ∨ base ≤ j) →
      base ≤ (ls.foldl (centerLine env maxW c) acc).1.next ∧
        (∀ j, j < base → (ls.foldl (centerLine env maxW c) acc).1.mem j = acc.1.mem j) ∧
        (∀ l ∈ (ls.foldl (centerLine env maxW c) acc).2, ∀ j ∈ l, P j ∨ base ≤ j) := by
  intro ls
  induction ls with
  | nil =>
    intro acc hb hacc _
    exact ⟨hb, fun j _ => rfl, hacc⟩
  | cons line rest ih =>
    intro acc hb hacc hls
    have hb2 : base ≤ (centerLine env maxW c acc line).1.next :=
      le_trans hb (centerLine_next_le env maxW c acc line)
    obtain ⟨pre, hsh, hpre⟩ := centerLine_shape env maxW c acc line
    have hacc2 : ∀ l ∈ (centerLine env maxW c acc line).2, ∀ j ∈ l, P j ∨ base ≤ j := by
      rw [hsh]
      intro l hl j hj
      rcases List.mem_append.mp hl with h | h
      · exact hacc l h j hj
      · have : l = pre ++ line := List.mem_singleton.mp h
        subst this
        rcases List.mem_append.mp hj with h2 | h2
        · exact Or.inr (le_trans hb (hpre j h2).1)
        · exact hls line (List.mem_cons_self line rest) j h2
    have hrest : ∀ l ∈ rest, ∀ j ∈ l, P j ∨ base ≤ j := by
      intro l hl
      exact hls l (List.mem_cons_of_mem line hl)
    have hrec := ih (centerLine env maxW c acc line) hb2 hacc2 hrest
    refine ⟨hrec.1, ?_, hrec.2.2⟩
    intro j hj
    rw [List.foldl_cons, hrec.2.1 j hj,
      centerLine_mem_lt env maxW c acc line j (lt_of_lt_of_le hj hb)]

/-- C1 (amended): wrapping leaves every input token's style flags and
sentence-end flag unchanged, leaves its word unchanged whenever the word
consists only of printable characters, and every id appearing in an output
line is either an input token or a freshly allocated node (a split half or a
spacer), distinct from every input token.  What the original claim misses is
that the printable-stripping pass writes each token's filtered word back into
the shared node (see the counterexample), and that the font-assignment pass
overwrites each input token's `font` attribute. -/
theorem rewrap_preserves_input_tokens (env : WrapEnv) (maxWidth : Int) (center : Bool)
    (st : Store) (ids : List Nat) (hv : ∀ i ∈ ids, i < st.next) :
    (∀ i ∈ ids,
        ((rewrap env maxWidth center st ids).1.mem i).isEnd = (st.mem i).isEnd ∧
          ((rewrap env maxWidth center st ids).1.mem i).isBold = (st.mem i).isBold ∧
          ((rewrap env maxWidth center st ids).1.mem i).isItalic = (st.mem i).isItalic ∧
          ((rewrap env maxWidth center st ids).1.mem i).isUnderlined = (st.mem i).isUnderlined ∧
          ((st.mem i).word.all env.printable = true →
            ((rewrap env maxWidth center st ids).1.mem i).word = (st.mem i).word)) ∧
      ∀ l ∈ (rewrap env maxWidth center st ids).2, ∀ j ∈ l, j ∈ ids ∨ st.next ≤ j := by
  set st1 := assignFonts st ids with hst1
  set g := ids.foldl (greedyStep env maxWidth) (⟨st1, [], []⟩ : WrapSt) with hgdef
  set temp := g.temp ++ [g.lineList] with htempdef
  set st2 := stripLines env.printable g.st temp with hst2def
  have hre : rewrap env maxWidth center st ids
      = temp.foldl (centerLine env maxWidth center) (st2, []) := rfl
  rw [hre]
  have hn1 : st1.next = st.next := assignFonts_next ids st
  have hG := greedy_fold_inv env maxWidth ids st.next ids ⟨st1, [], []⟩
    (fun i hi => hi) (le_of_eq hn1.symm)
    (by
      intro l hl j hj
      have he : l = [] := by simpa using hl
      subst he
      exact absurd hj (List.not_mem_nil j))
  obtain ⟨hg1, hg2, hg3⟩ := hG
  have hn2 : st2.next = g.st.next := stripLines_next env.printable temp g.st
  have hb2 : st.next ≤ (st2, ([] : List (List Nat))).1.next := by
    have h1 : st.next ≤ g.st.next := hg1
    have h2 : (st2, ([] : List (List Nat))).1.next = g.st.next := hn2
    omega
  have hCF := center_fold_fresh env maxWidth center st.next (fun j => j ∈ ids) temp (st2, [])
    hb2 (fun l hl => absurd hl (List.not_mem_nil l)) hg3
  obtain ⟨hc1, hc2m, hc3⟩ := hCF
  constructor
  · intro i hi
    have hilt : i < st.next := hv i hi
    have e1 : (temp.foldl (centerLine env maxWidth center) (st2, [])).1.mem i = st2.mem i :=
      hc2m i hilt
    have e3 : g.st.mem i = st1.mem i := hg2 i hilt
    have e4 := assignFonts_content ids st i
    rcases stripLines_mem env.printable temp g.st i with h | h
    · rw [e1, h, e3]
      exact ⟨e4.2.1, e4.2.2.1, e4.2.2.2.1, e4.2.2.2.2, fun _ => e4.1⟩
    · rw [e1, h, e3]
      refine ⟨e4.2.1, e4.2.2.1, e4.2.2.2.1, e4.2.2.2.2, ?_⟩
      intro hall
      show ((st1.mem i).word.filter env.printable) = (st.mem i).word
      rw [e4.1]
      refine List.filter_eq_self.mpr ?_
      intro a ha
      exact List.all_eq_true.mp hall a ha
  · intro l hl j hj
    exact hc3 l hl j hj

/-- A concrete one-node store: the bold token `"hi"`. -/
def c1wStore : Store := mkStore [⟨['h', 'i'], false, true, false, false, .fNone⟩]

/-- C1 witness: the amended theorem evaluated on a concrete bold token whose
word is fully printable — its bold flag and word survive wrapping. -/
theorem rewrap_preserves_input_tokens_witness :
    ((rewrap envU 5 true c1wStore [0]).1.mem 0).isBold = (c1wStore.mem 0).isBold ∧
      ((rewrap envU 5 true c1wStore [0]).1.mem 0).word = (c1wStore.mem 0).word := by
  have h := rewrap_preserves_input_tokens envU 5 true c1wStore [0] (by decide)
  have h0 := h.1 0 (by decide)
  exact ⟨h0.2.1, h0.2.2.2.2 (by decide)⟩

/-- For a line of style-free nodes, the markup-decorated string measures as
the words' widths plus one space advance per node. -/
theorem stringFromNodes_flagFree (env : WrapEnv) (st : Store) :
    ∀ l : List Nat,
      (∀ j ∈ l, (st.mem j).isBold = false ∧ (st.mem j).isItalic = false ∧
        (st.mem j).isUnderlined = false) →
      getsizeW env.normal (stringFromNodes st l true)
        = (l.map fun j => getsizeW env.normal (st.mem j).word).sum
          + l.length * getsizeW env.normal [' '] := by
  intro l
  induction l with
  | nil => intro _; simp [stringFromNodes, getsizeW]
  | cons i rest ih =>
    intro h
    have hi := h i (List.mem_cons_self i rest)
    have hrest := ih fun j hj => h j (List.mem_cons_of_mem _ hj)
    show getsizeW env.normal (nodeChunk (st.mem i) true ++ stringFromNodes st rest true) = _
    have hch : nodeChunk (st.mem i) true = (st.mem i).word ++ [' '] := by
      simp [nodeChunk, hi.1, hi.2.1, hi.2.2]
    rw [getsizeW_append, hch, getsizeW_append, hrest]
    simp only [List.map_cons, List.sum_cons, List.length_cons]
    ring

/-- The spec's line measure, written out for a nonempty line. -/
theorem specWidth_eq_formula (env : WrapEnv) (st : Store) (l : List Nat) (hne : l ≠ []) :
    specMeasuredLineWidth env st l
      = ((((l.map fun j =>
            getsizeW (if (st.mem j).isBold then env.bold else env.normal)
              (st.mem j).word).sum : Nat) : Int)
          + ((l.length - 1 : Nat) : Int) * (getsizeW env.normal [' '] : Nat)) := by
  cases l with
  | nil => exact absurd rfl hne
  | cons a t => rfl

/-- For style-free tokens measured with the normal font, the greedy packer's
candidate width — markup-string width of the current line plus the token's
own-font bare-word width — equals the spec's measure of the line extended by
the token. -/
theorem candidate_eq_spec (env : WrapEnv) (st : Store) (l : List Nat) (i : Nat)
    (hl : ∀ j ∈ l, (st.mem j).isBold = false ∧ (st.mem j).isItalic = false ∧
        (st.mem j).isUnderlined = false)
    (hif : (st.mem i).font = FontRef.fNormal) (hib : (st.mem i).isBold = false) :
    ((getsizeW env.normal (stringFromNodes st l true)
        + getsizeW (fontOf env (st.mem i).font) (st.mem i).word : Nat) : Int)
      = specMeasuredLineWidth env st (l ++ [i]) := by
  rw [specWidth_eq_formula env st (l ++ [i]) (by simp)]
  have hmap : (l ++ [i]).map
        (fun j => getsizeW (if (st.mem j).isBold then env.bold else env.normal) (st.mem j).word)
      = (l.map fun j => getsizeW env.normal (st.mem j).word)
        ++ [getsizeW env.normal (st.mem i).word] := by
    rw [List.map_append]
    congr 1
    · apply List.map_congr_left
      intro j hj
      rw [(hl j hj).1]
      simp
    · simp [hib]
  rw [hmap, List.sum_append, stringFromNodes_flagFree env st l hl, hif]
  simp only [fontOf, List.length_append, List.sum_cons, List.sum_nil, List.length_cons,
    List.length_nil]
  push_cast
  ring

/-- A concrete store for the C5 counterexample: the bold token `"ab"` and the
plain token `"c"`. -/
def c5Store : Store :=
  mkStore [⟨['a', 'b'], false, true, false, false, .fNone⟩,
    ⟨['c'], false, false, false, false, .fNone⟩]

/-- C5 counterexample: with unit character advances for both fonts and width
budget 4, the candidate line `["ab"(bold), "c"]` has spec-measured width
2 + 1 + 1 = 4 ≤ 4, so by the claim the token `"c"` would be appended; the
code instead measures the current line as the normal-font width of the
markup-decorated string `"*ab* "` (5) plus the word width (1), exceeds the
budget, and starts a new line: the wrapper's output is `[["ab"], ["c"]]`. -/
theorem packing_measure_counterexample :
    (rewrap envU 4 false c5Store [0, 1]).2 = [[0], [1]] ∧
      specMeasuredLineWidth envU (rewrap envU 4 false c5Store [0, 1]).1 [0, 1] ≤ 4 := by
  decide

/-- C5 (amended): the greedy packer's candidate width is the normal-font
width of the current line's markup-decorated string (style delimiters
included, one trailing space per token) plus the candidate token's own-font
bare-word width, and the token is appended to the current line exactly when
that sum is at most `maxWidth`.  For tokens carrying no style flags (whose
assigned font is the normal font) this candidate width coincides with the
claim's bold-aware per-token measure with one inter-token space and no
trailing space, and then the append decision is exactly the claim's. -/
theorem packing_candidate_decision (env : WrapEnv) (st : Store) (t : List (List Nat))
    (l : List Nat) (i : Nat) (maxWidth : Int)
    (hl : ∀ j ∈ l, (st.mem j).isBold = false ∧ (st.mem j).isItalic = false ∧
        (st.mem j).isUnderlined = false)
    (hif : (st.mem i).font = FontRef.fNormal) (hib : (st.mem i).isBold = false) :
    ((getsizeW env.normal (stringFromNodes st l true)
        + getsizeW (fontOf env (st.mem i).font) (st.mem i).word : Nat) : Int)
      = specMeasuredLineWidth env st (l ++ [i]) ∧
      (greedyStep env maxWidth ⟨st, t, l⟩ i = ⟨st, t, l ++ [i]⟩ ↔
        specMeasuredLineWidth env st (l ++ [i]) ≤ maxWidth) := by
  have hcand := candidate_eq_spec env st l i hl hif hib
  refine ⟨hcand, ?_⟩
  by_cases hc : ((getsizeW env.normal (stringFromNodes st l true)
      + getsizeW (fontOf env (st.mem i).font) (st.mem i).word : Nat) : Int) ≤ maxWidth
  · have heq : greedyStep env maxWidth ⟨st, t, l⟩ i = ⟨st, t, l ++ [i]⟩ := by
      simp only [greedyStep]
      rw [if_pos hc]
    exact ⟨fun _ => hcand ▸ hc, fun _ => heq⟩
  · have hspec : ¬ specMeasuredLineWidth env st (l ++ [i]) ≤ maxWidth := by
      rw [← hcand]
      exact hc
    constructor
    · intro heq
      exfalso
      have htemp : (greedyStep env maxWidth ⟨st, t, l⟩ i).temp = t ++ [l] ∨
          (greedyStep env maxWidth ⟨st, t, l⟩ i).temp = t ++ [l ++ [st.next]] := by
        simp only [greedyStep]
        rw [if_neg hc]
        split
        · exact Or.inl rfl
        · exact Or.inr rfl
      have ht2 : (greedyStep env maxWidth ⟨st, t, l⟩ i).temp = t := by rw [heq]
      rcases htemp with h2 | h2 <;>
        · rw [ht2] at h2
          have := congrArg List.length h2
          simp at this
    · intro hs
      exact absurd hs hspec

/-- A concrete store for the C5 witness: two style-free one-letter tokens
with the normal font assigned. -/
def c5wStore : Store :=
  mkStore [⟨['a'], false, false, false, false, .fNormal⟩,
    ⟨['b'], false, false, false, false, .fNormal⟩]

/-- C5 witness: the amended theorem evaluated on two concrete style-free
tokens with width budget 9. -/
theorem packing_candidate_decision_witness :
    ((getsizeW envU.normal (stringFromNodes c5wStore [0] true)
        + getsizeW (fontOf envU (c5wStore.mem 1).font) (c5wStore.mem 1).word : Nat) : Int)
      = specMeasuredLineWidth envU c5wStore [0, 1] ∧
      (greedyStep envU 9 ⟨c5wStore, [], [0]⟩ 1 = ⟨c5wStore, [], [0, 1]⟩ ↔
        specMeasuredLineWidth envU c5wStore [0, 1] ≤ 9) :=
  packing_candidate_decision envU c5wStore [] [0] 1 9 (by decide) (by decide) (by decide)

/-- A concrete store for the C4 counterexample: style-free tokens `"abc"`
and `"defgh"`. -/
def c4Store : Store :=
  mkStore [⟨['a', 'b', 'c'], false, false, false, false, .fNone⟩,
    ⟨['d', 'e', 'f', 'g', 'h'], false, false, false, false, .fNone⟩]

/-- C4 counterexample: with unit advances and width budget 4, the token
`"abc"` (width 3) is packed, then the oversized token `"defgh"` (width 5 > 4)
is split into `"de-"` and `"fgh"`; the hyphenated first half is appended to
the already-occupied current line without re-measuring, producing the output
line `["abc", "de-"]` of measured width 3 + 1 + 3 = 7 > 4 even though both of
its tokens individually measure at most 4 — so the claimed irreducible
single-token exception does not apply.  (The second half also becomes the new
pending line without being re-checked against the budget.) -/
theorem rewrap_line_exceeds_width :
    (rewrap envU 4 true c4Store [0, 1]).2 = [[0, 2], [3]] ∧
      specMeasuredLineWidth envU (rewrap envU 4 true c4Store [0, 1]).1 [0, 2] = 7 ∧
      ¬ specMeasuredLineWidth envU (rewrap envU 4 true c4Store [0, 1]).1 [0, 2] ≤ 4 ∧
      ((getsizeW envU.normal ((rewrap envU 4 true c4Store [0, 1]).1.mem 0).word : Nat) : Int) ≤ 4 ∧
      ((getsizeW envU.normal ((rewrap envU 4 true c4Store [0, 1]).1.mem 2).word : Nat) : Int) ≤ 4 := by
  decide

/-- The spec's line measure for a nonempty line, without truncated
subtraction: word widths plus one space advance per token beyond the first. -/
theorem specWidth_cons (env : WrapEnv) (st : Store) (a : Nat) (t : List Nat) :
    specMeasuredLineWidth env st (a :: t)
      = ((((a :: t).map fun j =>
            getsizeW (if (st.mem j).isBold then env.bold else env.normal)
              (st.mem j).word).sum : Nat) : Int)
        + (t.length : Int) * ((getsizeW env.normal [' '] : Nat) : Int) := by
  rw [specWidth_eq_formula env st (a :: t) (by simp)]
  simp [List.length_cons]

/-- A one-token line measures exactly its token's styled width. -/
theorem specWidth_singleton (env : WrapEnv) (st : Store) (i : Nat) :
    specMeasuredLineWidth env st [i]
      = ((getsizeW (if (st.mem i).isBold then env.bold else env.normal)
          (st.mem i).word : Nat) : Int) := by
  rw [specWidth_cons]
  simp

/-- The spec measure only depends on the nodes the line references. -/
theorem specWidth_congr (env : WrapEnv) (stA stB : Store) (l : List Nat)
    (h : ∀ j ∈ l, stA.mem j = stB.mem j) :
    specMeasuredLineWidth env stA l = specMeasuredLineWidth env stB l := by
  cases l with
  | nil => rfl
  | cons a t =>
    rw [specWidth_cons, specWidth_cons]
    have hmap : (a :: t).map
          (fun j => getsizeW (if (stA.mem j).isBold then env.bold else env.normal)
            (stA.mem j).word)
        = (a :: t).map
          (fun j => getsizeW (if (stB.mem j).isBold then env.bold else env.normal)
            (stB.mem j).word) := by
      apply List.map_congr_left
      intro j hj
      rw [h j hj]
    rw [hmap]

/-- Widening no node widens no line: if flags agree and every referenced
word's styled width is bounded by its counterpart, the measure is bounded. -/
theorem specWidth_le_of_store (env : WrapEnv) (stA stB : Store) (l : List Nat)
    (h : ∀ j ∈ l, (stA.mem j).isBold = (stB.mem j).isBold ∧
        getsizeW (if (stB.mem j).isBold then env.bold else env.normal) (stA.mem j).word
          ≤ getsizeW (if (stB.mem j).isBold then env.bold else env.normal) (stB.mem j).word) :
    specMeasuredLineWidth env stA l ≤ specMeasuredLineWidth env stB l := by
  cases l with
  | nil => exact le_refl _
  | cons a t =>
    rw [specWidth_cons, specWidth_cons]
    have hsum : ((a :: t).map
          (fun j => getsizeW (if (stA.mem j).isBold then env.bold else env.normal)
            (stA.mem j).word)).sum
        ≤ ((a :: t).map
          (fun j => getsizeW (if (stB.mem j).isBold then env.bold else env.normal)
            (stB.mem j).word)).sum := by
      apply List.sum_le_sum
      intro j hj
      have hx := h j hj
      rw [hx.1]
      exact hx.2
    have hsum2 : ((((a :: t).map
          (fun j => getsizeW (if (stA.mem j).isBold then env.bold else env.normal)
            (stA.mem j).word)).sum : Nat) : Int)
        ≤ ((((a :: t).map
          (fun j => getsizeW (if (stB.mem j).isBold then env.bold else env.normal)
            (stB.mem j).word)).sum : Nat) : Int) := by
      exact_mod_cast hsum
    omega

/-- Summing a constant plus a value over a list. -/
theorem sum_map_add_const (c : Nat) (w : Nat → Nat) (l : List Nat) :
    (l.map fun j => c + w j).sum = l.length * c + (l.map w).sum := by
  induction l with
  | nil => simp
  | cons a t ih =>
    simp only [List.map_cons, List.sum_cons, List.length_cons, ih]
    ring

/-- The code's final measure of an empty line is minus one space advance. -/
theorem codeLineWidth_nil (env : WrapEnv) (st : Store) :
    codeLineWidth env st [] = -((getsizeW env.normal [' '] : Nat) : Int) := by
  simp [codeLineWidth]

/-- On a nonempty line of normal-font, non-bold nodes, the code's final
measure coincides with the spec's measure. -/
theorem codeLineWidth_cons_eq_spec (env : WrapEnv) (st : Store) (a : Nat) (t : List Nat)
    (h : ∀ j ∈ a :: t, (st.mem j).font = FontRef.fNormal ∧ (st.mem j).isBold = false) :
    codeLineWidth env st (a :: t) = specMeasuredLineWidth env st (a :: t) := by
  rw [specWidth_cons]
  have hmap : (a :: t).map
        (fun i => getsizeW env.normal [' ']
          + getsizeW (fontOf env (st.mem i).font) (st.mem i).word)
      = (a :: t).map
        (fun i => getsizeW env.normal [' '] + getsizeW env.normal (st.mem i).word) := by
    apply List.map_congr_left
    intro j hj
    rw [(h j hj).1]
    rfl
  have hmap2 : (a :: t).map
        (fun j => getsizeW (if (st.mem j).isBold then env.bold else env.normal) (st.mem j).word)
      = (a :: t).map (fun j => getsizeW env.normal (st.mem j).word) := by
    apply List.map_congr_left
    intro j hj
    rw [(h j hj).2]
    simp
  rw [codeLineWidth, hmap, hmap2, sum_map_add_const]
  simp only [List.length_cons]
  push_cast
  ring

/-- The number of inserted spacers, times the space advance, is bounded by
the remaining difference (the code computes `int(((difference /
spaceWidth)) // 2)` on the already-reduced difference). -/
theorem numberOfSpaces_mul_le (D : Int) (sp : Nat) (_hsp : 0 < sp) (hD : 0 ≤ D) :
    ((D.toNat / sp / 2 : Nat) : Int) * ((sp : Nat) : Int) ≤ D := by
  have h1 : D.toNat / sp / 2 = D.toNat / (sp * 2) := Nat.div_div_eq_div_mul _ _ _
  have h2 : D.toNat / (sp * 2) * (sp * 2) ≤ D.toNat := Nat.div_mul_le_self _ _
  have h3 : D.toNat / (sp * 2) * (sp * 2) = D.toNat / (sp * 2) * sp * 2 := by ring
  have h5 : D.toNat / (sp * 2) * sp ≤ D.toNat := by omega
  have h4 : ((D.toNat : Nat) : Int) = D := Int.toNat_of_nonneg hD
  rw [h1]
  calc ((D.toNat / (sp * 2) : Nat) : Int) * ((sp : Nat) : Int)
      = ((D.toNat / (sp * 2) * sp : Nat) : Int) := by push_cast; ring
    _ ≤ ((D.toNat : Nat) : Int) := by exact_mod_cast h5
    _ = D := h4

/-- Prepending blank non-bold spacer nodes adds at most one space advance per
spacer to the spec measure (exactly one when the line is nonempty). -/
theorem specWidth_spacer_prepend (env : WrapEnv) (st : Store) (pre l : List Nat)
    (hpre : ∀ j ∈ pre, (st.mem j).word = [] ∧ (st.mem j).isBold = false) :
    specMeasuredLineWidth env st (pre ++ l)
      ≤ specMeasuredLineWidth env st l
        + (pre.length : Int) * ((getsizeW env.normal [' '] : Nat) : Int) := by
  cases pre with
  | nil => simp
  | cons p0 pt =>
    have hsum0 : ((p0 :: pt).map
          (fun j => getsizeW (if (st.mem j).isBold then env.bold else env.normal)
            (st.mem j).word)).sum = 0 := by
      apply List.sum_eq_zero
      intro x hx
      rcases List.mem_map.mp hx with ⟨j, hj, hfx⟩
      rw [← hfx, (hpre j hj).1]
      simp [getsizeW]
    cases l with
    | nil =>
      rw [List.append_nil, specWidth_cons]
      have h2 : ((((p0 :: pt).map
            (fun j => getsizeW (if (st.mem j).isBold then env.bold else env.normal)
              (st.mem j).word)).sum : Nat) : Int) = 0 := by
        rw [hsum0]
        rfl
      rw [h2]
      simp only [specMeasuredLineWidth, List.length_cons]
      have hle : (pt.length : Int) ≤ ((pt.length + 1 : Nat) : Int) := by push_cast; omega
      have hnn : (0 : Int) ≤ ((getsizeW env.normal [' '] : Nat) : Int) := by positivity
      calc (0 : Int) + (pt.length : Int) * ((getsizeW env.normal [' '] : Nat) : Int)
          ≤ ((pt.length + 1 : Nat) : Int) * ((getsizeW env.normal [' '] : Nat) : Int) := by
            nlinarith
        _ = 0 + ((pt.length + 1 : Nat) : Int) * ((getsizeW env.normal [' '] : Nat) : Int) := by
            ring
    | cons a t =>
      have happ : (p0 :: pt) ++ a :: t = p0 :: (pt ++ a :: t) := rfl
      rw [happ, specWidth_cons, specWidth_cons]
      have hsplit : ((p0 :: (pt ++ a :: t)).map
            (fun j => getsizeW (if (st.mem j).isBold then env.bold else env.normal)
              (st.mem j).word)).sum
          = ((a :: t).map
            (fun j => getsizeW (if (st.mem j).isBold then env.bold else env.normal)
              (st.mem j).word)).sum := by
        have hre : p0 :: (pt ++ a :: t) = (p0 :: pt) ++ a :: t := rfl
        rw [hre, List.map_append, List.sum_append, hsum0]
        simp
      rw [hsplit]
      simp only [List.length_append, List.length_cons]
      push_cast
      nlinarith [sq_nonneg (1 : Int)]

/-- Width invariant of the greedy fold, in the style-free case: when every
input token is style-free, carries the normal font, and individually fits the
budget, the fold allocates nothing and every flushed or pending line consists
of input ids and measures within the budget. -/
theorem greedy_fold_widths (env : WrapEnv) (maxW : Int) (ids0 : List Nat) (st1 : Store)
    (hids : ∀ i ∈ ids0, ((st1.mem i).isBold = false ∧ (st1.mem i).isItalic = false ∧
        (st1.mem i).isUnderlined = false) ∧ (st1.mem i).font = FontRef.fNormal ∧
        ((getsizeW env.normal (st1.mem i).word : Nat) : Int) ≤ maxW) :
    ∀ (ids : List Nat) (s : WrapSt),
      (∀ i ∈ ids, i ∈ ids0) →
      s.st = st1 →
      (∀ j ∈ s.lineList, j ∈ ids0) →
      (s.lineList = [] ∨ specMeasuredLineWidth env st1 s.lineList ≤ maxW) →
      (∀ l ∈ s.temp, (∀ j ∈ l, j ∈ ids0) ∧
        (l = [] ∨ specMeasuredLineWidth env st1 l ≤ maxW)) →
      (ids.foldl (greedyStep env maxW) s).st = st1 ∧
        ∀ l ∈ (ids.foldl (greedyStep env maxW) s).temp
            ++ [(ids.foldl (greedyStep env maxW) s).lineList],
          (∀ j ∈ l, j ∈ ids0) ∧ (l = [] ∨ specMeasuredLineWidth env st1 l ≤ maxW) := by
  intro ids
  induction ids with
  | nil =>
    intro s _ hst hlm hlw htemp
    refine ⟨hst, ?_⟩
    intro l hl
    rcases List.mem_append.mp hl with h | h
    · exact htemp l h
    · have he : l = s.lineList := List.mem_singleton.mp h
      subst he
      exact ⟨hlm, hlw⟩
  | cons i rest ih =>
    intro s hsub hst hlm hlw htemp
    have hi : i ∈ ids0 := hsub i (List.mem_cons_self i rest)
    have hid := hids i hi
    have hc2 : ((getsizeW (fontOf env (st1.mem i).font) (st1.mem i).word : Nat) : Int)
        ≤ maxW := by
      rw [hid.2.1]
      simpa [fontOf] using hid.2.2
    by_cases hc1 : ((getsizeW env.normal (stringFromNodes st1 s.lineList true)
        + getsizeW (fontOf env (st1.mem i).font) (st1.mem i).word : Nat) : Int) ≤ maxW
    · have hres : greedyStep env maxW s i = ⟨st1, s.temp, s.lineList ++ [i]⟩ := by
        simp only [greedyStep]
        rw [hst, if_pos hc1]
      rw [List.foldl_cons, hres]
      apply ih ⟨st1, s.temp, s.lineList ++ [i]⟩
        (fun a ha => hsub a (List.mem_cons_of_mem i ha)) rfl
      · intro j hj
        rcases List.mem_append.mp hj with h | h
        · exact hlm j h
        · exact (List.mem_singleton.mp h) ▸ hi
      · right
        have hflags : ∀ j ∈ s.lineList, (st1.mem j).isBold = false ∧
            (st1.mem j).isItalic = false ∧ (st1.mem j).isUnderlined = false :=
          fun j hj => (hids j (hlm j hj)).1
        rw [← candidate_eq_spec env st1 s.lineList i hflags hid.2.1 hid.1.1]
        exact hc1
      · exact htemp
    · have hres : greedyStep env maxW s i = ⟨st1, s.temp ++ [s.lineList], [i]⟩ := by
        simp only [greedyStep]
        rw [hst, if_neg hc1, if_pos hc2]
      rw [List.foldl_cons, hres]
      apply ih ⟨st1, s.temp ++ [s.lineList], [i]⟩
        (fun a ha => hsub a (List.mem_cons_of_mem i ha)) rfl
      · intro j hj
        exact (List.mem_singleton.mp hj) ▸ hi
      · right
        rw [specWidth_singleton, hid.1.1]
        simpa using hid.2.2
      · intro l hl
        rcases List.mem_append.mp hl with h | h
        · exact htemp l h
        · have he : l = s.lineList := List.mem_singleton.mp h
          subst he
          exact ⟨hlm, hlw⟩

/-- Every id produced by `allocSpacers` is below the new frontier. -/
theorem allocSpacers_ids_lt (k : Nat) :
    ∀ (st : Store) (j : Nat), j ∈ (allocSpacers st k).2 → j < st.next + k := by
  induction k with
  | zero => intro st j hj; exact absurd hj (List.not_mem_nil j)
  | succ n ih =>
    intro st j hj
    have hj2 : j ∈ (allocSpacers (allocNode st spacerNode).1 n).2 ++ [st.next] := hj
    rcases List.mem_append.mp hj2 with h | h
    · have := ih (allocNode st spacerNode).1 j h
      simp only [allocNode] at this
      omega
    · have := List.mem_singleton.mp h
      omega

/-- One centering step: the appended line measures within the budget and all
its ids are below the new frontier, provided the processed line's nodes are
normal-font, non-bold, already allocated, and the line (if nonempty) measures
within the budget. -/
theorem centerLine_new_line_bound (env : WrapEnv) (maxW : Int) (c : Bool)
    (acc : Store × List (List Nat)) (line : List Nat) (hmax : 0 ≤ maxW)
    (hplain : ∀ j ∈ line, (acc.1.mem j).font = FontRef.fNormal ∧
        (acc.1.mem j).isBold = false ∧ j < acc.1.next)
    (hw : line = [] ∨ specMeasuredLineWidth env acc.1 line ≤ maxW) :
    ∃ pre : List Nat,
      (centerLine env maxW c acc line).2 = acc.2 ++ [pre ++ line] ∧
        specMeasuredLineWidth env (centerLine env maxW c acc line).1 (pre ++ line) ≤ maxW ∧
        ∀ j ∈ pre ++ line, j < (centerLine env maxW c acc line).1.next := by
  have hwacc : specMeasuredLineWidth env acc.1 line ≤ maxW := by
    rcases hw with h | h
    · subst h
      simpa [specMeasuredLineWidth] using hmax
    · exact h
  simp only [centerLine]
  split
  · split
    · -- spacer-insertion branch
      rename_i hcond hsp
      refine ⟨(allocSpacers acc.1 ((maxW - codeLineWidth env acc.1 line
          - ((getsizeW env.normal [' '] : Nat) : Int)).toNat / getsizeW env.normal [' '] / 2)).2,
        rfl, ?_, ?_⟩
      · -- width bound
        set sp : Nat := getsizeW env.normal [' '] with hspdef
        set cw : Int := codeLineWidth env acc.1 line with hcwdef
        set K : Nat := (maxW - cw - (sp : Int)).toNat / sp / 2 with hKdef
        set st' : Store := (allocSpacers acc.1 K).1 with hstdef
        have hD : (0 : Int) ≤ maxW - cw - (sp : Int) := by
          have := hsp.2
          omega
        have hKb : ((K : Nat) : Int) * ((sp : Nat) : Int) ≤ maxW - cw - (sp : Int) := by
          rw [hKdef]
          exact numberOfSpaces_mul_le (maxW - cw - (sp : Int)) sp hsp.1 hD
        have hpre2 : ∀ j ∈ (allocSpacers acc.1 K).2,
            (st'.mem j).word = [] ∧ (st'.mem j).isBold = false := by
          intro j hj
          have := allocSpacers_mem_ids K acc.1 j hj
          rw [hstdef, this]
          exact ⟨rfl, rfl⟩
        have hlen : (allocSpacers acc.1 K).2.length = K := allocSpacers_len K acc.1
        have hprep := specWidth_spacer_prepend env st' (allocSpacers acc.1 K).2 line hpre2
        rw [hlen] at hprep
        have hcongr : specMeasuredLineWidth env st' line
            = specMeasuredLineWidth env acc.1 line := by
          apply specWidth_congr
          intro j hj
          exact allocSpacers_mem_lt K acc.1 j (hplain j hj).2.2
        rw [hcongr] at hprep
        have hbridge : ((K : Nat) : Int) * ((getsizeW env.normal [' '] : Nat) : Int)
            = ((K : Nat) : Int) * ((sp : Nat) : Int) := by
          rw [hspdef]
        cases hline : line with
        | nil =>
          rw [hline] at hprep
          have hcwnil : cw = -((sp : Nat) : Int) := by
            rw [hcwdef, hline, hspdef]
            exact codeLineWidth_nil env acc.1
          have hspec0 : specMeasuredLineWidth env acc.1 ([] : List Nat) = 0 := rfl
          rw [hspec0] at hprep
          omega
        | cons a t =>
          rw [hline] at hprep
          have hplain2 : ∀ j ∈ a :: t, (acc.1.mem j).font = FontRef.fNormal ∧
              (acc.1.mem j).isBold = false := by
            intro j hj
            exact ⟨(hplain j (hline ▸ hj)).1, (hplain j (hline ▸ hj)).2.1⟩
          have hcw : cw = specMeasuredLineWidth env acc.1 (a :: t) := by
            rw [hcwdef, hline]
            exact codeLineWidth_cons_eq_spec env acc.1 a t hplain2
          have hX : specMeasuredLineWidth env acc.1 (a :: t) ≤ maxW := by
            rw [← hline]
            exact hwacc
          omega
      · -- freshness of the appended line's ids
        intro j hj
        rcases List.mem_append.mp hj with h | h
        · have h1 := allocSpacers_ids_lt _ acc.1 j h
          rw [allocSpacers_next]
          exact h1
        · have h1 := (hplain j h).2.2
          rw [allocSpacers_next]
          exact Nat.lt_of_lt_of_le h1 (Nat.le_add_right _ _)
    · -- centering condition failed: line unchanged
      refine ⟨[], rfl, ?_, ?_⟩
      · simpa using hwacc
      · intro j hj
        simp only [List.nil_append] at hj
        exact (hplain j hj).2.2
  · -- centering off or line too wide: line unchanged
    refine ⟨[], rfl, ?_, ?_⟩
    · simpa using hwacc
    · intro j hj
      simp only [List.nil_append] at hj
      exact (hplain j hj).2.2

/-- Width invariant of the centering fold: starting from the stripped store
`st2`, every accumulated output line keeps measuring within the budget as the
fold allocates spacers. -/
theorem center_fold_widths (env : WrapEnv) (maxW : Int) (c : Bool) (st2 : Store)
    (hmax : 0 ≤ maxW) :
    ∀ (ls : List (List Nat)) (acc : Store × List (List Nat)),
      st2.next ≤ acc.1.next →
      (∀ j, j < st2.next → acc.1.mem j = st2.mem j) →
      (∀ l ∈ ls, (∀ j ∈ l, j < st2.next ∧ (st2.mem j).font = FontRef.fNormal ∧
          (st2.mem j).isBold = false) ∧
        (l = [] ∨ specMeasuredLineWidth env st2 l ≤ maxW)) →
      (∀ l ∈ acc.2, (∀ j ∈ l, j < acc.1.next) ∧
        specMeasuredLineWidth env acc.1 l ≤ maxW) →
      ∀ l ∈ (ls.foldl (centerLine env maxW c) acc).2,
        specMeasuredLineWidth env (ls.foldl (centerLine env maxW c) acc).1 l ≤ maxW := by
  intro ls
  induction ls with
  | nil =>
    intro acc _ _ _ hacc l hl
    exact (hacc l hl).2
  | cons line rest ih =>
    intro acc hb hmem hls hacc
    have hlineProps := hls line (List.mem_cons_self line rest)
    have hplain : ∀ j ∈ line, (acc.1.mem j).font = FontRef.fNormal ∧
        (acc.1.mem j).isBold = false ∧ j < acc.1.next := by
      intro j hj
      have h1 := (hlineProps.1 j hj)
      have h2 := hmem j h1.1
      rw [h2]
      exact ⟨h1.2.1, h1.2.2, lt_of_lt_of_le h1.1 hb⟩
    have hw : line = [] ∨ specMeasuredLineWidth env acc.1 line ≤ maxW := by
      rcases hlineProps.2 with h | h
      · exact Or.inl h
      · right
        have : specMeasuredLineWidth env acc.1 line = specMeasuredLineWidth env st2 line := by
          apply specWidth_congr
          intro j hj
          exact hmem j (hlineProps.1 j hj).1
        rw [this]
        exact h
    obtain ⟨pre, hsh, hwid, hfresh⟩ :=
      centerLine_new_line_bound env maxW c acc line hmax hplain hw
    have hb2 : st2.next ≤ (centerLine env maxW c acc line).1.next :=
      le_trans hb (centerLine_next_le env maxW c acc line)
    have hmem2 : ∀ j, j < st2.next → (centerLine env maxW c acc line).1.mem j = st2.mem j := by
      intro j hj
      rw [centerLine_mem_lt env maxW c acc line j (lt_of_lt_of_le hj hb)]
      exact hmem j hj
    have hacc2 : ∀ l ∈ (centerLine env maxW c acc line).2,
        (∀ j ∈ l, j < (centerLine env maxW c acc line).1.next) ∧
          specMeasuredLineWidth env (centerLine env maxW c acc line).1 l ≤ maxW := by
      rw [hsh]
      intro l hl
      rcases List.mem_append.mp hl with h | h
      · have hold := hacc l h
        have hids2 : ∀ j ∈ l, j < (centerLine env maxW c acc line).1.next := by
          intro j hj
          exact lt_of_lt_of_le (hold.1 j hj) (centerLine_next_le env maxW c acc line)
        refine ⟨hids2, ?_⟩
        have : specMeasuredLineWidth env (centerLine env maxW c acc line).1 l
            = specMeasuredLineWidth env acc.1 l := by
          apply specWidth_congr
          intro j hj
          exact centerLine_mem_lt env maxW c acc line j (hold.1 j hj)
        rw [this]
        exact hold.2
      · have he : l = pre ++ line := List.mem_singleton.mp h
        subst he
        exact ⟨hfresh, hwid⟩
    have hrest : ∀ l ∈ rest, (∀ j ∈ l, j < st2.next ∧ (st2.mem j).font = FontRef.fNormal ∧
        (st2.mem j).isBold = false) ∧ (l = [] ∨ specMeasuredLineWidth env st2 l ≤ maxW) := by
      intro l hl
      exact hls l (List.mem_cons_of_mem line hl)
    rw [List.foldl_cons]
    exact ih (centerLine env maxW c acc line) hb2 hmem2 hrest hacc2

/-- C4 (amended): when every input token carries no style flags and its own
width fits the budget (so no token is ever split), every line the wrapper
produces — including after centering — has spec-measured width at most
`maxWidth`.  What the original claim misses is the splitting path: the
hyphenated first half of an oversized token is appended to the current,
possibly non-empty, line without re-measuring (so that flushed line can
exceed the budget with no single token exceeding it — see the
counterexample), and the second half becomes the pending line without being
re-checked or re-split against the budget. -/
theorem rewrap_width_bound (env : WrapEnv) (maxWidth : Int) (center : Bool)
    (st : Store) (ids : List Nat)
    (hmax : 0 ≤ maxWidth)
    (hfree : ∀ i ∈ ids, (st.mem i).isBold = false ∧ (st.mem i).isItalic = false ∧
        (st.mem i).isUnderlined = false)
    (hval : ∀ i ∈ ids, i < st.next)
    (hfit : ∀ i ∈ ids, ((getsizeW env.normal (st.mem i).word : Nat) : Int) ≤ maxWidth) :
    ∀ line ∈ (rewrap env maxWidth center st ids).2,
      specMeasuredLineWidth env (rewrap env maxWidth center st ids).1 line ≤ maxWidth := by
  set st1 := assignFonts st ids with hst1
  set g := ids.foldl (greedyStep env maxWidth) (⟨st1, [], []⟩ : WrapSt) with hgdef
  set temp := g.temp ++ [g.lineList] with htempdef
  set st2 := stripLines env.printable g.st temp with hst2def
  have hre : rewrap env maxWidth center st ids
      = temp.foldl (centerLine env maxWidth center) (st2, []) := rfl
  rw [hre]
  have hn1 : st1.next = st.next := assignFonts_next ids st
  have hids1 : ∀ i ∈ ids, ((st1.mem i).isBold = false ∧ (st1.mem i).isItalic = false ∧
      (st1.mem i).isUnderlined = false) ∧ (st1.mem i).font = FontRef.fNormal ∧
      ((getsizeW env.normal (st1.mem i).word : Nat) : Int) ≤ maxWidth := by
    intro i hi
    have hc := assignFonts_content ids st i
    have hf := assignFonts_font ids st i hi
    refine ⟨⟨?_, ?_, ?_⟩, ?_, ?_⟩
    · rw [hc.2.2.1]
      exact (hfree i hi).1
    · rw [hc.2.2.2.1]
      exact (hfree i hi).2.1
    · rw [hc.2.2.2.2]
      exact (hfree i hi).2.2
    · rw [hf, (hfree i hi).1]
      rfl
    · rw [hc.1]
      exact hfit i hi
  have hGW := greedy_fold_widths env maxWidth ids st1 hids1 ids ⟨st1, [], []⟩
    (fun i hi => hi) rfl (fun j hj => absurd hj (List.not_mem_nil j)) (Or.inl rfl)
    (fun l hl => absurd hl (List.not_mem_nil l))
  obtain ⟨hgst, hlines⟩ := hGW
  have hgst2 : g.st = st1 := hgst
  have hn2 : st2.next = g.st.next := stripLines_next env.printable temp g.st
  have hn3 : st2.next = st.next := by
    rw [hn2, hgst2, hn1]
  have hmemChar : ∀ i : Nat, st2.mem i = st1.mem i ∨ st2.mem i
      = stripNode env.printable (st1.mem i) := by
    intro i
    have h := stripLines_mem env.printable temp g.st i
    rw [← hst2def] at h
    rw [hgst2] at h
    exact h
  have hlsProps : ∀ l ∈ temp, (∀ j ∈ l, j < st2.next ∧ (st2.mem j).font = FontRef.fNormal ∧
      (st2.mem j).isBold = false) ∧
      (l = [] ∨ specMeasuredLineWidth env st2 l ≤ maxWidth) := by
    intro l hl
    have hprops := hlines l hl
    constructor
    · intro j hj
      have hjid : j ∈ ids := hprops.1 j hj
      have hjlt : j < st2.next := by
        rw [hn3]
        exact hval j hjid
      have hid1 := hids1 j hjid
      rcases hmemChar j with h | h
      · exact ⟨hjlt, by rw [h]; exact hid1.2.1, by rw [h]; exact hid1.1.1⟩
      · refine ⟨hjlt, ?_, ?_⟩
        · rw [h]
          exact hid1.2.1
        · rw [h]
          exact hid1.1.1
    · rcases hprops.2 with h | h
      · exact Or.inl h
      · right
        have hle : specMeasuredLineWidth env st2 l ≤ specMeasuredLineWidth env st1 l := by
          apply specWidth_le_of_store
          intro j hj
          rcases hmemChar j with h2 | h2
          · rw [h2]
            exact ⟨rfl, le_refl _⟩
          · rw [h2]
            refine ⟨rfl, ?_⟩
            show getsizeW _ ((st1.mem j).word.filter env.printable) ≤ _
            exact getsizeW_filter_le _ _ _
        exact le_trans hle h
  exact center_fold_widths env maxWidth center st2 hmax temp (st2, [])
    (le_refl _) (fun j _ => rfl) hlsProps (fun l hl => absurd hl (List.not_mem_nil l))

/-- A concrete store for the C4 witness: style-free tokens `"ab"` and `"c"`. -/
def c4wStore : Store :=
  mkStore [⟨['a', 'b'], false, false, false, false, .fNone⟩,
    ⟨['c'], false, false, false, false, .fNone⟩]

/-- C4 witness: the amended theorem evaluated at budget 9 on two small
style-free tokens; the single centered output line (two spacers followed by
the two tokens) measures within the budget. -/
theorem rewrap_width_bound_witness :
    specMeasuredLineWidth envU (rewrap envU 9 true c4wStore [0, 1]).1 [3, 2, 0, 1] ≤ 9 := by
  have h := rewrap_width_bound envU 9 true c4wStore [0, 1] (by decide) (by decide) (by decide)
    (by decide)
  exact h [3, 2, 0, 1] (by decide)

/-- One unfolding step of the fit loop. -/
theorem fitLoop_succ (cfg : FitConfig) (n : Nat) (s : FitState) :
    fitLoop cfg (n + 1) s =
      if goodSize s.normalFont s.st s.lines cfg.width cfg.height then .accepted s
      else
        match reloadFontsAt cfg.loader (s.size - 1) with
        | .error e => .exc e
        | .ok fonts =>
          fitLoop cfg n ⟨s.size - 1, fonts.1, fonts.2,
            (rewrap ⟨fonts.1, fonts.2, cfg.printable⟩ cfg.width true s.st cfg.nodeList).1,
            (rewrap ⟨fonts.1, fonts.2, cfg.printable⟩ cfg.width true s.st cfg.nodeList).2⟩ := rfl

/-- C3 (amended): the fit loop decrements the candidate size by exactly one
on each failing iteration and accepts only a configuration whose layout
actually fits, so an acceptance within `fuel` iterations returns a size in
the interval `(startSize − fuel, startSize]`.  No minimum font size is
enforced and no best-effort layout is ever accepted: on an input that never
fits, the loop keeps running with the size decreasing without bound (see the
counterexample). -/
theorem fitLoop_accept_characterization (cfg : FitConfig) :
    ∀ (fuel : Nat) (s out : FitState), fitLoop cfg fuel s = .accepted out →
      goodSize out.normalFont out.st out.lines cfg.width cfg.height = true ∧
        out.size ≤ s.size ∧ s.size - fuel < out.size := by
  intro fuel
  induction fuel with
  | zero =>
    intro s out h
    exact absurd h (by simp [fitLoop])
  | succ n ih =>
    intro s out h
    rw [fitLoop_succ] at h
    by_cases hg : goodSize s.normalFont s.st s.lines cfg.width cfg.height = true
    · rw [if_pos hg] at h
      injection h with h2
      subst h2
      refine ⟨hg, le_refl _, ?_⟩
      have : (0 : Int) < ((n + 1 : Nat) : Int) := by positivity
      omega
    · rw [if_neg hg] at h
      cases hl : reloadFontsAt cfg.loader (s.size - 1) with
      | error e =>
        rw [hl] at h
        exact absurd h (by simp)
      | ok fonts =>
        rw [hl] at h
        have hrec := ih _ out h
        have h1 : out.size ≤ s.size - 1 := hrec.2.1
        have h2 : (s.size - 1) - (n : Int) < out.size := hrec.2.2
        refine ⟨hrec.1, by omega, ?_⟩
        have h3 : ((n + 1 : Nat) : Int) = (n : Int) + 1 := by push_cast; ring
        omega

/-- A fit configuration that accepts immediately: empty token list, unit
fonts, box 1 × 1. -/
def c3wCfg : FitConfig := ⟨fun _ => .ok (unitFont, unitFont), fun _ => true, [], 1, 1⟩

/-- An immediately-fitting state: one empty line. -/
def c3wState : FitState := ⟨4, unitFont, unitFont, mkStore [], [[]]⟩

/-- C3 witness: the amended theorem evaluated on a configuration that fits at
once — the loop accepts at the starting size. -/
theorem fitLoop_accept_characterization_witness :
    goodSize c3wState.normalFont c3wState.st c3wState.lines c3wCfg.width c3wCfg.height = true ∧
      c3wState.size ≤ c3wState.size ∧ c3wState.size - ((1 : Nat) : Int) < c3wState.size :=
  fitLoop_accept_characterization c3wCfg 1 c3wState c3wState rfl
